import Mathlib

/-!
# jcmp: recursive comparison of two JSON documents

A shallow embedding of `main.go` (`compareJSON`, `cut`, `appendPath`,
`escapePath`) together with the part of the `gjson` library interface the
program calls (`gjson.Parse`, `gjson.Get`, `Result.Exists`, `Result.Type`,
`Result.String`, `Result.IsObject`, `Result.IsArray`, `Result.ForEach`).

The three package-level variables of `main.go` are made explicit:
`blacklist` and `strictMode` are read-only and live in `Config`; `compared`
is threaded through the traversal in `State`, next to the list of lines the
traversal has printed so far (as structured events).
-/

namespace Jcmp

/-! ## The gjson interface -/

/-- The value kinds of gjson (`gjson.Type`): objects and arrays share the kind
`JSON`, the two boolean literals have a kind each. -/
inductive GType where
  | Null
  | False
  | True
  | Number
  | String
  | JSON
  deriving DecidableEq, Repr

/-- The text `Type.String()` returns, as printed on a `!TYP` line. -/
def typeString : GType → String
  | .Null => "Null"
  | .False => "False"
  | .True => "True"
  | .Number => "Number"
  | .String => "String"
  | .JSON => "JSON"

/-- A `gjson.Result`. `typ`, `raw` and `str` are the fields `Type`, `Raw` and
`Str`. The `float64` field `Num` is represented by `num`, the text
`strconv.FormatFloat(Num, 'f', -1, 64)`, which is all `Result.String` uses of
it. `keys` lists `key.String()` for the successive callbacks of
`Result.ForEach`. -/
structure Result where
  typ : GType
  raw : String
  str : String
  num : String
  keys : List String
  deriving DecidableEq, Repr

/-- The zero `Result`, returned for a path that does not resolve. -/
def Result.zero : Result := ⟨.Null, "", "", "0", []⟩

/-- `Result.Exists`: `t.Type != Null || len(t.Raw) != 0`. -/
def Result.Exists (t : Result) : Bool :=
  t.typ != .Null || t.raw != ""

/-- `Result.IsObject`: kind `JSON` and the raw text starts with an opening brace. -/
def Result.IsObject (t : Result) : Bool :=
  t.typ == .JSON && t.raw.data.head? == some (Char.ofNat 123)

/-- `Result.IsArray`: kind `JSON` and the raw text starts with an opening bracket. -/
def Result.IsArray (t : Result) : Bool :=
  t.typ == .JSON && t.raw.data.head? == some (Char.ofNat 91)

/-- The test `Result.String` makes on the raw text of a number: an optional
leading minus sign followed by decimal digits only. -/
def isIntegerText (raw : String) : Bool :=
  match raw.data with
  | [] => false
  | c :: cs => (if c = '-' then cs else c :: cs).all Char.isDigit

/-- `Result.String`. -/
def Result.text (t : Result) : String :=
  match t.typ with
  | .Null => ""
  | .False => "false"
  | .True => "true"
  | .Number => if isIntegerText t.raw then t.raw else t.num
  | .String => t.str
  | .JSON => t.raw

/-- The two entry points of gjson the program calls, over documents of type
`D`: `Parse json` and `Get json path`. -/
structure Gjson (D : Type) where
  Parse : D → Result
  Get : D → String → Result

/-! ## Path codec and truncation (`main.go`) -/

/-- `escapePath`: `strings.ReplaceAll(path, ".", "\\.")`. -/
def escapePath (path : String) : String :=
  ⟨path.data.flatMap fun c => if c = '.' then ['\\', '.'] else [c]⟩

/-- `appendPath`. -/
def appendPath (basePath key : String) : String :=
  if basePath = "" then escapePath key
  else basePath ++ "." ++ escapePath key

/-- `strings.Split(path, sep)` for the two-character separator `\.` (a
backslash followed by a dot), on character lists. -/
def splitEscapedDot : List Char → List (List Char)
  | [] => [[]]
  | '\\' :: '.' :: rest => [] :: splitEscapedDot rest
  | c :: rest =>
    match splitEscapedDot rest with
    | [] => [[c]]
    | part :: parts => (c :: part) :: parts

/-- `pp`: split at every escaped dot, put spaces around the remaining dots
(`strings.ReplaceAll(p, ".", " . ")`) and join the parts with a dot. -/
def pp (path : String) : String :=
  ⟨List.intercalate ['.']
    ((splitEscapedDot path.data).map fun part =>
      part.flatMap fun c => if c = '.' then [' ', '.', ' '] else [c])⟩

/-- The bytes of a Go string (its UTF-8 encoding): `len` and slicing in Go
count bytes. -/
def goBytes (s : String) : List Nat :=
  (s.data.flatMap String.utf8EncodeChar).map UInt8.toNat

/-- `cut`: `len(s) > maxLen` compares the byte length, `s[:maxLen]` keeps the
first `maxLen` bytes, and `%d` prints the byte length in decimal. The result
is given as bytes, since the slice may end inside a character. -/
def cut (s : String) (maxLen : Nat) : List Nat :=
  if (goBytes s).length > maxLen then
    (goBytes s).take maxLen ++ goBytes ("...(" ++ toString (goBytes s).length ++ " bytes)")
  else goBytes s

/-- `MAX_LEN` of `compareJSON`. -/
def MAX_LEN : Nat := 1000

/-- `strings.Contains` on character lists: `sub` occurs in `s`. -/
def containsChars (sub : List Char) : List Char → Bool
  | [] => sub.isEmpty
  | c :: cs => sub.isPrefixOf (c :: cs) || containsChars sub cs

/-- `strings.Contains(s, sub)`. -/
def strContains (s sub : String) : Bool :=
  containsChars sub.data s.data

/-! ## The traversal (`main.go`, `compareJSON`) -/

/-- One report of `compareJSON`, named by the tag it is printed with; `path`
is the canonical path (the line shows `pp path`). `typ` carries the two
`Type.String()` texts, `neq` the two truncated values. -/
inductive Event where
  | blk (path : String)
  | ebt (path : String)
  | add (path : String)
  | del (path : String)
  | typ (path : String) (t1 t2 : String)
  | exs (path : String)
  | eql (path : String)
  | neq (path : String) (v1 v2 : List Nat)
  deriving DecidableEq, Repr

/-- The canonical path an event reports on. -/
def Event.path : Event → String
  | .blk p | .ebt p | .add p | .del p | .typ p _ _ | .exs p | .eql p | .neq p _ _ => p

/-- The read-only package variables `blacklist` and `strictMode`. -/
structure Config where
  blacklist : List String
  strictMode : Bool

/-- The mutable part of a run: the package variable `compared` (the paths
inserted so far, most recent first) and the events printed so far. -/
structure State where
  compared : List String
  out : List Event
  deriving DecidableEq, Repr

/-- Printing one event. -/
def State.emit (st : State) (e : Event) : State :=
  { st with out := st.out ++ [e] }

/-- Result of running `compareJSON` with a bound on the depth of nested
calls: `done` when the call returned, `overflow` when the nesting exceeded
the bound (the state is the one reached at that moment). -/
inductive Run where
  | done (st : State)
  | overflow (st : State)
  deriving DecidableEq, Repr

/-- The state a run ended in. -/
def Run.state : Run → State
  | .done st => st
  | .overflow st => st

/-- `Result.ForEach` with a callback that always returns `true`: the callback
runs on every key in order; a nesting overflow aborts the iteration. -/
def forEach (f : String → State → Run) : List String → State → Run
  | [], st => .done st
  | k :: ks, st =>
    match f k st with
    | .done st1 => forEach f ks st1
    | .overflow st1 => .overflow st1

/-- The loop over `blacklist`: some entry is contained in `path`. -/
def blacklisted (cfg : Config) (path : String) : Bool :=
  cfg.blacklist.any fun b => strContains path b

/-- Lines 56-65: the whole document for the empty path, `gjson.Get` otherwise. -/
def resolve {D : Type} (g : Gjson D) (json : D) (path : String) : Result :=
  if path = "" then g.Parse json else g.Get json path

/-- One guarded loop of lines 107-133, `if b { r.ForEach(callback) }`, run
after the loops before it. -/
def forEachIf (b : Bool) (f : String → State → Run) (keys : List String) : Run → Run
  | .done st => if b then forEach f keys st else .done st
  | .overflow st => .overflow st

/-- Lines 107-133: the four guarded `ForEach` loops in order (`results1` as
an object, `results2` as an object, `results1` as an array, `results2` as an
array), with `call` the recursive call. -/
def recurse (call : String → State → Run) (path : String) (results1 results2 : Result)
    (st : State) : Run :=
  let callback : String → State → Run := fun key s => call (appendPath path key) s
  forEachIf results2.IsArray callback results2.keys
    (forEachIf results1.IsArray callback results1.keys
      (forEachIf results2.IsObject callback results2.keys
        (forEachIf results1.IsObject callback results1.keys (.done st))))

/-- `compareJSON json1 json2 path`, with at most `fuel` nested calls. -/
def compareJSON {D : Type} (g : Gjson D) (cfg : Config) (json1 json2 : D) :
    Nat → String → State → Run
  | 0, _, st => .overflow st
  | fuel + 1, path, st =>
    if path ∈ st.compared then .done st
    else
      let st := { st with compared := path :: st.compared }
      if blacklisted cfg path then .done (st.emit (.blk path))
      else
        let results1 := resolve g json1 path
        let results2 := resolve g json2 path
        if !results1.Exists && !results2.Exists then .done (st.emit (.ebt path))
        else if !results1.Exists then .done (st.emit (.add path))
        else if !results2.Exists then .done (st.emit (.del path))
        else if results1.typ ≠ results2.typ then
          .done (st.emit (.typ path (typeString results1.typ) (typeString results2.typ)))
        else
          let st := if !cfg.strictMode then st.emit (.exs path) else st
          if results1.text = results2.text then
            .done (if !cfg.strictMode then st.emit (.eql path) else st)
          else
            let st :=
              if !results1.IsObject && !results2.IsObject && !results1.IsArray
                  && !results2.IsArray then
                st.emit (.neq path (cut results1.text MAX_LEN) (cut results2.text MAX_LEN))
              else st
            recurse (compareJSON g cfg json1 json2 fuel) path results1 results2 st

/-- A fresh run: nothing compared, nothing printed. -/
def State.init : State := ⟨[], []⟩

/-! ## A model of gjson on parsed documents

`gjson` (github.com/tidwall/gjson) is a dependency of the program, not part
of its sources. The general results below hold for every `Gjson D`; the
concrete runs use the following model of the library on parsed documents.
It covers compact JSON texts (no insignificant white space), integer number
literals, strings and keys whose only JSON escapes are those of the quote and
of the backslash, and paths made of plain
characters, the separator `.`, the escape character `\` and a leading
`@this` modifier; the other path operators of gjson (`*`, `?`, `|`, `#`,
`!`, sub-selectors, the remaining modifiers) are not modelled. -/

/-- A parsed JSON document. `num` holds the literal text of a number, `str`
and the keys of `obj` hold decoded text. -/
inductive JVal where
  | null
  | false
  | true
  | num (lit : String)
  | str (s : String)
  | arr (items : List JVal)
  | obj (members : List (String × JVal))

/-- The JSON text of a string or key: quoted, with the quote and the
backslash escaped by a backslash. -/
def jsonQuote (s : String) : String :=
  "\"" ++ ⟨s.data.flatMap fun c => if c = Char.ofNat 34 ∨ c = '\\' then ['\\', c] else [c]⟩ ++ "\""

mutual
/-- The compact JSON text of a document (the `Raw` of its `Result`). -/
def JVal.raw : JVal → String
  | .null => "null"
  | .false => "false"
  | .true => "true"
  | .num lit => lit
  | .str s => jsonQuote s
  | .arr items => "[" ++ JVal.rawItems items ++ "]"
  | .obj members => "\x7b" ++ JVal.rawMembers members ++ "\x7d"
/-- The items of an array, separated by commas. -/
def JVal.rawItems : List JVal → String
  | [] => ""
  | [v] => v.raw
  | v :: vs => v.raw ++ "," ++ JVal.rawItems vs
/-- The members of an object, separated by commas. -/
def JVal.rawMembers : List (String × JVal) → String
  | [] => ""
  | [(k, v)] => jsonQuote k ++ ":" ++ v.raw
  | (k, v) :: ms => jsonQuote k ++ ":" ++ v.raw ++ "," ++ JVal.rawMembers ms
end

/-- The `Result` gjson builds for a value found in a document. Array keys are
the indices `0, 1, ...` in decimal, object keys the member names in order. -/
def JVal.result : JVal → Result
  | .null => ⟨.Null, "null", "", "0", []⟩
  | .false => ⟨.False, "false", "", "0", []⟩
  | .true => ⟨.True, "true", "", "0", []⟩
  | .num lit => ⟨.Number, lit, "", lit, []⟩
  | .str s => ⟨.String, (JVal.str s).raw, s, "0", []⟩
  | .arr items => ⟨.JSON, (JVal.arr items).raw, "", "0",
      (List.range items.length).map fun i => toString i⟩
  | .obj members => ⟨.JSON, (JVal.obj members).raw, "", "0", members.map Prod.fst⟩

/-- The `Result` of a lookup: the zero `Result` when nothing was found. -/
def lookupResult : Option JVal → Result
  | none => Result.zero
  | some v => v.result

/-- `parseObjectPath`: the first path component read against an object, with
`\` taking the next character literally, and the rest of the path after the
separator when there is one. -/
def parseObjectPath : List Char → List Char × Option (List Char)
  | [] => ([], none)
  | '.' :: rest => ([], some rest)
  | ['\\'] => ([], none)
  | '\\' :: c :: rest =>
    let r := parseObjectPath rest
    (c :: r.1, r.2)
  | c :: rest =>
    let r := parseObjectPath rest
    (c :: r.1, r.2)

/-- `parseArrayPath`: the first path component read against an array (no
escapes), and the rest of the path after the separator when there is one. -/
def parseArrayPath : List Char → List Char × Option (List Char)
  | [] => ([], none)
  | '.' :: rest => ([], some rest)
  | c :: rest =>
    let r := parseArrayPath rest
    (c :: r.1, r.2)

/-- `parseUint`: the value of a non-empty string of decimal digits, in a
64-bit signed `int` (wrapping on overflow); `none` for anything else. -/
def parseUint (s : List Char) : Option Int :=
  if s.isEmpty then none
  else s.foldl (fun acc c =>
    match acc with
    | none => none
    | some n =>
      if c.isDigit then
        some ((((n * 10 + ((c.toNat : Int) - 48)) + 2 ^ 63) % 2 ^ 64) - 2 ^ 63)
      else none) (some 0)

/-- The member loop of `parseObject`: the first member whose key equals
`part` and, when the path goes on, inside whose value the rest resolves
(`sub`); a matching member that does not resolve is passed over. -/
def findMember (sub : JVal → Option JVal) (part : List Char) (more : Bool) :
    List (String × JVal) → Option JVal
  | [] => none
  | (k, v) :: ms =>
    if k.data = part then
      if more then
        match sub v with
        | some r => some r
        | none => findMember sub part more ms
      else some v
    else findMember sub part more ms

/-- `parseObject` and `parseArray`: resolve `path` inside a container, with
`fuel` bounding the number of path components. -/
def getIn : Nat → JVal → List Char → Option JVal
  | 0, _, _ => none
  | fuel + 1, .obj members, path =>
    let rp := parseObjectPath path
    match rp.2 with
    | some rest => findMember (fun v => getIn fuel v rest) rp.1 true members
    | none => findMember (fun _ => none) rp.1 false members
  | fuel + 1, .arr items, path =>
    let rp := parseArrayPath path
    match parseUint rp.1 with
    | none => none
    | some n =>
      if n < 0 then none
      else
        match items.get? n.toNat, rp.2 with
        | none, _ => none
        | some v, none => some v
        | some v, some rest => getIn fuel v rest
  | _ + 1, _, _ => none

/-- The name of a leading modifier, `path[1:i]` for the first `i` with
`path[i]` a separator or a pipe, and the rest of the path from `i` on
(modifier arguments, introduced by `:`, are not modelled). -/
def modifierName (path : List Char) : List Char × List Char :=
  (path.tail.takeWhile (fun c => c != '.' && c != '|'),
   path.tail.dropWhile (fun c => c != '.' && c != '|'))

/-- `gjson.Get` on a parsed document: a leading `@this` returns the document
itself and the rest of the path is resolved from it; any other path is
resolved inside the root object or array. -/
def getPath : Nat → JVal → List Char → Option JVal
  | 0, _, _ => none
  | fuel + 1, json, path =>
    if 1 < path.length ∧ path.head? = some '@' ∧ (modifierName path).1 = "this".data then
      match (modifierName path).2 with
      | '.' :: rest => getPath fuel json rest
      | '|' :: rest => getPath fuel json rest
      | _ => some json
    else getIn (path.length + 1) json path

/-- The gjson model: `Parse` on a document, `Get` on a document and a path. -/
def gjson : Gjson JVal where
  Parse := fun json => json.result
  Get := fun json path => lookupResult (getPath (path.length + 1) json path.data)

/-! ## Auxiliary definitions for the statements -/

/-- The events a call of `compareJSON` on an unvisited `path` prints itself
(lines 49-105), before any nested call. -/
def ownEvents (cfg : Config) (path : String) (results1 results2 : Result) : List Event :=
  if blacklisted cfg path then [.blk path]
  else if !results1.Exists && !results2.Exists then [.ebt path]
  else if !results1.Exists then [.add path]
  else if !results2.Exists then [.del path]
  else if results1.typ ≠ results2.typ then
    [.typ path (typeString results1.typ) (typeString results2.typ)]
  else
    (if !cfg.strictMode then [.exs path] else []) ++
      (if results1.text = results2.text then
        (if !cfg.strictMode then [.eql path] else [])
      else if !results1.IsObject && !results2.IsObject && !results1.IsArray
          && !results2.IsArray then
        [.neq path (cut results1.text MAX_LEN) (cut results2.text MAX_LEN)]
      else [])

/-- The call on an unvisited `path` reaches the `ForEach` loops (line 107):
no `return` of lines 49-96 is taken. -/
def descends (cfg : Config) (path : String) (results1 results2 : Result) : Bool :=
  !blacklisted cfg path && results1.Exists && results2.Exists
    && decide (results1.typ = results2.typ) && decide (results1.text ≠ results2.text)

/-- The events of `out` that report on the canonical path `p`. -/
def eventsAt (p : String) (out : List Event) : List Event :=
  out.filter fun e => decide (e.path = p)

/-- The informational `:EXS` note. -/
def Event.isExs : Event → Bool
  | .exs _ => true
  | _ => false

/-- The value kinds of the specification's data model. -/
inductive Kind where
  | object
  | array
  | string
  | number
  | boolean
  | null
  | none
  deriving DecidableEq, Repr

/-- The specification's kind of a resolved value: `none` when it does not
exist, otherwise object, array, string, number, boolean or null. -/
def Result.kind (t : Result) : Kind :=
  if !t.Exists then .none
  else match t.typ with
    | .Null => .null
    | .False => .boolean
    | .True => .boolean
    | .Number => .number
    | .String => .string
    | .JSON => if t.IsArray then .array else .object

/-- The path reached from `p` by descending through `keys` in turn. -/
def descendant (p : String) (keys : List String) : String :=
  keys.foldl appendPath p

/-! ## Documents used in the concrete runs -/

/-- The document `{"x":1}`. -/
def docX1 : JVal := .obj [("x", .num "1")]

/-- The document `{}`. -/
def docEmpty : JVal := .obj []

/-- The document `{"x":"1"}`. -/
def docXStr : JVal := .obj [("x", .str "1")]

/-- The document `{"x":{"a":1}}`. -/
def docXObj : JVal := .obj [("x", .obj [("a", .num "1")])]

/-- The document `{"x":[2]}`. -/
def docXArr : JVal := .obj [("x", .arr [.num "2"])]

/-- The document `{"x":true}`. -/
def docXTrue : JVal := .obj [("x", .true)]

/-- The document `{"x":false}`. -/
def docXFalse : JVal := .obj [("x", .false)]

/-- The document `{"x":{"a":1,"b":2}}`. -/
def docAB : JVal := .obj [("x", .obj [("a", .num "1"), ("b", .num "2")])]

/-- The document `{"x":{"b":3,"c":4}}`. -/
def docBC : JVal := .obj [("x", .obj [("b", .num "3"), ("c", .num "4")])]

/-- The document `{"@this":1}`. -/
def docThis1 : JVal := .obj [("@this", .num "1")]

/-- The document `{"@this":2}`. -/
def docThis2 : JVal := .obj [("@this", .num "2")]

/-- The path `@this.@this. ... .@this` with `k + 1` components. -/
def thisPath : Nat → String
  | 0 => "@this"
  | k + 1 => appendPath (thisPath k) "@this"

/-- The state invariant behind the visited set: every printed event reports
on a visited path, a path carries at most one `:EXS` note and at most one
other event, and strict mode prints no `:EXS` note. -/
def Tidy (cfg : Config) (st : State) : Prop :=
  (∀ e ∈ st.out, e.path ∈ st.compared) ∧
  (∀ p, (eventsAt p st.out).countP Event.isExs ≤ 1 ∧
    (eventsAt p st.out).countP (fun e => !e.isExs) ≤ 1) ∧
  (cfg.strictMode = true → ∀ e ∈ st.out, e.isExs = false)

/-- The document `{"x":{"y":1}}`. -/
def docXY1 : JVal := .obj [("x", .obj [("y", .num "1")])]

/-- The document `{"x":{"y":2}}`. -/
def docXY2 : JVal := .obj [("x", .obj [("y", .num "2")])]

/-- The document `{"secret.token":"abc"}`. -/
def docSecretAbc : JVal := .obj [("secret.token", .str "abc")]

/-- The document `{"secret.token":"xyz"}`. -/
def docSecretXyz : JVal := .obj [("secret.token", .str "xyz")]

/-- The document `{"secret":{"token":"abc"}}`. -/
def docTokenAbc : JVal := .obj [("secret", .obj [("token", .str "abc")])]

/-- The document `{"secret":{"token":"xyz"}}`. -/
def docTokenXyz : JVal := .obj [("secret", .obj [("token", .str "xyz")])]

/-- The characters of `thisPath k`. -/
def thisChars : Nat → List Char
  | 0 => "@this".data
  | k + 1 => thisChars k ++ ".@this".data

/-- The child paths descend in `rank`: whenever a call on `path` reaches the
loops, every key of either value leads to a child path of smaller rank. -/
def Descending {D : Type} (g : Gjson D) (cfg : Config) (json1 json2 : D)
    (rank : String → Nat) : Prop :=
  ∀ path, descends cfg path (resolve g json1 path) (resolve g json2 path) = true →
    ∀ k, k ∈ (resolve g json1 path).keys ∨ k ∈ (resolve g json2 path).keys →
      rank (appendPath path k) < rank path

/-- The informational `=EQL` note. -/
def Event.isEql : Event → Bool
  | .eql _ => true
  | _ => false

/-- The events strict mode keeps: everything but `:EXS` and `=EQL`. -/
def Event.keptInStrict (e : Event) : Bool :=
  !e.isExs && !e.isEql

/-- A strict-mode state and a non-strict state correspond: same visited set,
and the strict output is the non-strict output without `:EXS` and `=EQL`. -/
def StrictOf (s n : State) : Prop :=
  s.compared = n.compared ∧ s.out = n.out.filter Event.keptInStrict

/-- A strict-mode run and a non-strict run correspond: both returned or both
exceeded the nesting bound, in corresponding states. -/
def RunStrictOf : Run → Run → Prop
  | .done s, .done n => StrictOf s n
  | .overflow s, .overflow n => StrictOf s n
  | _, _ => False

/-- A string of 501 copies of the two-byte character U+00E9. -/
def twoByteString : String := ⟨List.replicate 501 (Char.ofNat 233)⟩

/-- The characters of `escapePath` on a character list. -/
def escChars (l : List Char) : List Char :=
  l.flatMap fun c => if c = '.' then ['\\', '.'] else [c]

/-- The characters of `pp` on a character list. -/
def ppChars (l : List Char) : List Char :=
  List.intercalate ['.']
    ((splitEscapedDot l).map fun part =>
      part.flatMap fun c => if c = '.' then [' ', '.', ' '] else [c])

/-- Put `pre` in front of the first part of a split. -/
def consHead (pre : List Char) : List (List Char) → List (List Char)
  | [] => [pre]
  | part :: parts => (pre ++ part) :: parts

/-- Split a canonical path at every dot that is not preceded by a backslash. -/
def splitUnescaped : List Char → List (List Char)
  | [] => [[]]
  | '\\' :: '.' :: rest => consHead ['\\', '.'] (splitUnescaped rest)
  | '.' :: rest => [] :: splitUnescaped rest
  | c :: rest => consHead [c] (splitUnescaped rest)

/-- Unescape a path segment: every backslash followed by a dot becomes a dot. -/
def unescapeDots : List Char → List Char
  | [] => []
  | '\\' :: '.' :: rest => '.' :: unescapeDots rest
  | c :: rest => c :: unescapeDots rest

/-- The decoder of the path codec as the specification describes it (the
program itself never decodes a path): no key for the empty path, otherwise
the unescaped segments between the dots that are not preceded by a
backslash. -/
def decodePath (path : String) : List String :=
  if path = "" then []
  else (splitUnescaped path.data).map fun seg => ⟨unescapeDots seg⟩

/-- The document `{"a\\b":1}`, whose single key is `a\b`. -/
def docBackslash1 : JVal := .obj [("a\\b", .num "1")]

/-- The document `{"a\\b":2}`, whose single key is `a\b`. -/
def docBackslash2 : JVal := .obj [("a\\b", .num "2")]

/-- The document `{"@this":1,"b":2}`. -/
def docThisB1 : JVal := .obj [("@this", .num "1"), ("b", .num "2")]

/-- The document `{"@this":2,"b":3}`. -/
def docThisB2 : JVal := .obj [("@this", .num "2"), ("b", .num "3")]

/-- The paths a run caught in the `@this` chain has visited: the root and
the paths `thisPath j`. -/
def OnThisChain (st : State) : Prop :=
  ∀ q ∈ st.compared, q = "" ∨ ∃ j, q = thisPath j

/-- How a call on `q` can arise in a run started at `start`: `q` is the start
path, or the child `appendPath r key` of a visited path `r` that is not
blacklisted. -/
def Reached (cfg : Config) (start : String) (compared : List String) (q : String) : Prop :=
  q = start ∨ ∃ r key, r ∈ compared ∧ blacklisted cfg r = false ∧ q = appendPath r key

/-- Every visited path was reached from the start path through parents that are
not blacklisted. -/
def Provenance (cfg : Config) (start : String) (st : State) : Prop :=
  ∀ q ∈ st.compared, Reached cfg start st.compared q

/-- The document `{"x.y":1}`. -/
def docDotKey1 : JVal := .obj [("x.y", .num "1")]

/-- The document `{"x.y":2}`. -/
def docDotKey2 : JVal := .obj [("x.y", .num "2")]

/-! ## Unfolding and induction principles -/

theorem emit_eq (st : State) (e : Event) : st.emit e = ⟨st.compared, st.out ++ [e]⟩ := rfl

theorem compareJSON_zero {D : Type} (g : Gjson D) (cfg : Config) (json1 json2 : D)
    (path : String) (st : State) :
    compareJSON g cfg json1 json2 0 path st = .overflow st := rfl

theorem compareJSON_visited {D : Type} (g : Gjson D) (cfg : Config) (json1 json2 : D)
    (fuel : Nat) (path : String) (st : State) (h : path ∈ st.compared) :
    compareJSON g cfg json1 json2 (fuel + 1) path st = .done st := by
  simp [compareJSON, h]

theorem compareJSON_succ {D : Type} (g : Gjson D) (cfg : Config) (json1 json2 : D)
    (fuel : Nat) (path : String) (st : State) (h : path ∉ st.compared) :
    compareJSON g cfg json1 json2 (fuel + 1) path st =
      if descends cfg path (resolve g json1 path) (resolve g json2 path) then
        recurse (compareJSON g cfg json1 json2 fuel) path (resolve g json1 path)
          (resolve g json2 path)
          ⟨path :: st.compared,
            st.out ++ ownEvents cfg path (resolve g json1 path) (resolve g json2 path)⟩
      else
        .done ⟨path :: st.compared,
          st.out ++ ownEvents cfg path (resolve g json1 path) (resolve g json2 path)⟩ := by
  simp only [compareJSON, h, if_false, ownEvents, descends, emit_eq]
  by_cases hb : blacklisted cfg path = true
  · simp [hb]
  · simp only [hb, if_false]
    by_cases h1 : (resolve g json1 path).Exists = true <;>
    by_cases h2 : (resolve g json2 path).Exists = true <;>
    simp [h1, h2]
    by_cases ht : (resolve g json1 path).typ = (resolve g json2 path).typ
    · simp only [ht]
      by_cases hs : cfg.strictMode = true <;>
      by_cases hx : (resolve g json1 path).text = (resolve g json2 path).text <;>
      simp [hs, hx]
      all_goals (split <;> simp_all)
    · simp [ht]




/-! ### Running the loops -/

theorem forEach_preserves (P : State → Prop) (f : String → State → Run)
    (hf : ∀ k st, P st → P (f k st).state) :
    ∀ (ks : List String) (st : State), P st → P (forEach f ks st).state := by
  intro ks
  induction ks with
  | nil => intro st h; exact h
  | cons k ks ih =>
    intro st h
    have hk := hf k st h
    simp only [forEach]
    cases hfk : f k st with
    | done st1 =>
      rw [hfk] at hk
      exact ih st1 hk
    | overflow st1 =>
      rw [hfk] at hk
      exact hk

theorem forEachIf_preserves (P : State → Prop) (f : String → State → Run)
    (hf : ∀ k st, P st → P (f k st).state) (b : Bool) (ks : List String) (run : Run)
    (h : P run.state) : P (forEachIf b f ks run).state := by
  cases run with
  | done s =>
    cases b with
    | false => exact h
    | true => exact forEach_preserves P f hf ks s h
  | overflow s => exact h

theorem recurse_preserves (P : State → Prop) (call : String → State → Run)
    (hcall : ∀ p st, P st → P (call p st).state)
    (path : String) (r1 r2 : Result) (st : State) (h : P st) :
    P (recurse call path r1 r2 st).state := by
  unfold recurse
  have hf : ∀ k s, P s → P ((fun key s => call (appendPath path key) s) k s).state :=
    fun k s hs => hcall _ s hs
  exact forEachIf_preserves P _ hf _ _ _ (forEachIf_preserves P _ hf _ _ _
    (forEachIf_preserves P _ hf _ _ _ (forEachIf_preserves P _ hf _ _ (.done st) h)))

/-- Induction principle for the traversal: a property of the state that
survives the part of a call before the loops survives the whole run. -/
theorem compareJSON_preserves {D : Type} (g : Gjson D) (cfg : Config) (json1 json2 : D)
    (P : State → Prop)
    (hstep : ∀ path st, P st → path ∉ st.compared →
      P ⟨path :: st.compared,
        st.out ++ ownEvents cfg path (resolve g json1 path) (resolve g json2 path)⟩) :
    ∀ (fuel : Nat) (path : String) (st : State), P st →
      P (compareJSON g cfg json1 json2 fuel path st).state := by
  intro fuel
  induction fuel with
  | zero => intro path st h; exact h
  | succ n ih =>
    intro path st h
    by_cases hv : path ∈ st.compared
    · rw [compareJSON_visited g cfg json1 json2 n path st hv]; exact h
    · rw [compareJSON_succ g cfg json1 json2 n path st hv]
      have h1 := hstep path st h hv
      split
      · exact recurse_preserves P _ ih path _ _ _ h1
      · exact h1

/-! ## What a single call prints -/

theorem ownEvents_path (cfg : Config) (path : String) (r1 r2 : Result) :
    ∀ e ∈ ownEvents cfg path r1 r2, e.path = path := by
  intro e he
  unfold ownEvents at he
  split_ifs at he <;> simp at he <;> (try rcases he with he | he) <;> subst_vars <;> rfl

theorem ownEvents_count_exs (cfg : Config) (path : String) (r1 r2 : Result) :
    (ownEvents cfg path r1 r2).countP Event.isExs ≤ 1 := by
  unfold ownEvents
  split_ifs <;> simp [Event.isExs, List.countP_cons]

theorem ownEvents_count_other (cfg : Config) (path : String) (r1 r2 : Result) :
    (ownEvents cfg path r1 r2).countP (fun e => !e.isExs) ≤ 1 := by
  unfold ownEvents
  split_ifs <;> simp [Event.isExs, List.countP_cons]

theorem ownEvents_strict (cfg : Config) (path : String) (r1 r2 : Result)
    (hs : cfg.strictMode = true) : ∀ e ∈ ownEvents cfg path r1 r2, e.isExs = false := by
  intro e he
  unfold ownEvents at he
  simp only [hs, Bool.not_true, Bool.false_eq_true, if_false, List.nil_append] at he
  split_ifs at he <;> simp at he <;> subst_vars <;> rfl

theorem tidy_init (cfg : Config) : Tidy cfg State.init := by
  refine ⟨?_, ?_, ?_⟩ <;> simp [State.init, eventsAt]

theorem eventsAt_append (p : String) (a b : List Event) :
    eventsAt p (a ++ b) = eventsAt p a ++ eventsAt p b := by
  simp [eventsAt]

theorem eventsAt_own_self (cfg : Config) (path : String) (r1 r2 : Result) :
    eventsAt path (ownEvents cfg path r1 r2) = ownEvents cfg path r1 r2 := by
  unfold eventsAt
  rw [List.filter_eq_self]
  intro e he
  simp [ownEvents_path cfg path r1 r2 e he]

theorem eventsAt_own_other (cfg : Config) (path p : String) (r1 r2 : Result) (h : p ≠ path) :
    eventsAt p (ownEvents cfg path r1 r2) = [] := by
  unfold eventsAt
  rw [List.filter_eq_nil_iff]
  intro e he
  simp [ownEvents_path cfg path r1 r2 e he, Ne.symm h]

theorem tidy_step (cfg : Config) (path : String) (r1 r2 : Result) (st : State)
    (h : Tidy cfg st) (hv : path ∉ st.compared) :
    Tidy cfg ⟨path :: st.compared, st.out ++ ownEvents cfg path r1 r2⟩ := by
  obtain ⟨h1, h2, h3⟩ := h
  refine ⟨?_, ?_, ?_⟩
  · intro e he
    rcases List.mem_append.1 he with he | he
    · exact List.mem_cons_of_mem _ (h1 e he)
    · rw [ownEvents_path cfg path r1 r2 e he]; exact List.mem_cons_self _ _
  · intro p
    simp only [eventsAt_append, List.countP_append]
    by_cases hp : p = path
    · subst hp
      have hnil : eventsAt p st.out = [] := by
        unfold eventsAt
        rw [List.filter_eq_nil_iff]
        intro e he
        have := h1 e he
        simp only [decide_eq_true_eq]
        intro heq
        exact hv (heq ▸ this)
      rw [hnil, eventsAt_own_self]
      simpa using ⟨ownEvents_count_exs cfg p r1 r2, ownEvents_count_other cfg p r1 r2⟩
    · rw [eventsAt_own_other cfg path p r1 r2 hp]
      simpa using h2 p
  · intro hs e he
    rcases List.mem_append.1 he with he | he
    · exact h3 hs e he
    · exact ownEvents_strict cfg path r1 r2 hs e he

/-- Every run from a fresh state keeps the invariant `Tidy`, whether it
returns or exceeds the nesting bound. -/
theorem tidy_run {D : Type} (g : Gjson D) (cfg : Config) (json1 json2 : D)
    (fuel : Nat) (start : String) :
    Tidy cfg (compareJSON g cfg json1 json2 fuel start State.init).state :=
  compareJSON_preserves g cfg json1 json2 (Tidy cfg)
    (fun path st h hv => tidy_step cfg path _ _ st h hv) fuel start State.init (tidy_init cfg)

theorem eventsAt_length (p : String) (out : List Event) :
    (eventsAt p out).length =
      (eventsAt p out).countP Event.isExs + (eventsAt p out).countP (fun e => !e.isExs) := by
  rw [List.length_eq_countP_add_countP Event.isExs]
  simp

/-- C1 (as amended): a run of `compareJSON` from an empty visited set, for any
documents, blacklist and start path, prints at most one event per canonical
path in strict mode and at most two in non-strict mode (the `:EXS` note and
one more), whether it returns or exceeds the nesting bound. -/
theorem C1_events_per_path {D : Type} (g : Gjson D) (cfg : Config) (json1 json2 : D)
    (fuel : Nat) (start p : String) :
    (eventsAt p (compareJSON g cfg json1 json2 fuel start State.init).state.out).length
      ≤ if cfg.strictMode = true then 1 else 2 := by
  obtain ⟨_, h2, h3⟩ := tidy_run g cfg json1 json2 fuel start
  rw [eventsAt_length]
  have := h2 p
  split
  · rename_i hs
    have hz : (eventsAt p (compareJSON g cfg json1 json2 fuel start State.init).state.out).countP
        Event.isExs = 0 := by
      rw [List.countP_eq_zero]
      intro e he
      have := h3 hs e (List.mem_of_mem_filter he)
      simp [this]
    omega
  · omega

/-- C1 (counterexample): comparing `{"x":1}` with itself from the root in
non-strict mode prints two events for the root path, `:EXS` and `=EQL`. -/
theorem C1_counterexample :
    compareJSON gjson ⟨[], false⟩ docX1 docX1 1 "" State.init
        = .done ⟨[""], [.exs "", .eql ""]⟩ ∧
      ¬ (eventsAt "" (compareJSON gjson ⟨[], false⟩ docX1 docX1 1 "" State.init).state.out).length
        ≤ 1 := by
  decide

/-! ## Terminal classifications -/

/-- A call on an unvisited path that does not reach the loops returns after
printing its own events, having inserted just that path. -/
theorem compareJSON_terminal {D : Type} (g : Gjson D) (cfg : Config) (json1 json2 : D)
    (fuel : Nat) (path : String) (st : State) (hv : path ∉ st.compared)
    (hd : descends cfg path (resolve g json1 path) (resolve g json2 path) = false) :
    compareJSON g cfg json1 json2 (fuel + 1) path st =
      .done ⟨path :: st.compared,
        st.out ++ ownEvents cfg path (resolve g json1 path) (resolve g json2 path)⟩ := by
  rw [compareJSON_succ g cfg json1 json2 fuel path st hv, hd]
  simp

/-- C2 (as amended): on an unvisited, non-blacklisted path that resolves in
the first document only, `compareJSON` prints exactly one event, `-DEL`
(Deleted), and returns without a nested call; on one that resolves in the
second document only it prints exactly one event, `+ADD` (Added), and returns
without a nested call. The visited set gains that path only. -/
theorem C2_one_side_only {D : Type} (g : Gjson D) (cfg : Config) (json1 json2 : D)
    (fuel : Nat) (path : String) (st : State)
    (hv : path ∉ st.compared) (hb : blacklisted cfg path = false) :
    ((resolve g json1 path).Exists = true → (resolve g json2 path).Exists = false →
      compareJSON g cfg json1 json2 (fuel + 1) path st =
        .done ⟨path :: st.compared, st.out ++ [.del path]⟩) ∧
    ((resolve g json1 path).Exists = false → (resolve g json2 path).Exists = true →
      compareJSON g cfg json1 json2 (fuel + 1) path st =
        .done ⟨path :: st.compared, st.out ++ [.add path]⟩) := by
  constructor
  · intro h1 h2
    rw [compareJSON_terminal g cfg json1 json2 fuel path st hv (by simp [descends, hb, h1, h2])]
    simp [ownEvents, hb, h1, h2]
  · intro h1 h2
    rw [compareJSON_terminal g cfg json1 json2 fuel path st hv (by simp [descends, hb, h1, h2])]
    simp [ownEvents, hb, h1, h2]

/-- C2 (witness): `{"x":1}` against `{}` at `x` gives `-DEL x`, and `{}`
against `{"x":1}` gives `+ADD x`. -/
theorem C2_one_side_only_witness :
    compareJSON gjson ⟨[], false⟩ docX1 docEmpty 1 "x" State.init
        = .done ⟨["x"], [.del "x"]⟩ ∧
      compareJSON gjson ⟨[], false⟩ docEmpty docX1 1 "x" State.init
        = .done ⟨["x"], [.add "x"]⟩ :=
  ⟨(C2_one_side_only gjson ⟨[], false⟩ docX1 docEmpty 0 "x" State.init
      (by decide) (by decide)).1 (by decide) (by decide),
   (C2_one_side_only gjson ⟨[], false⟩ docEmpty docX1 0 "x" State.init
      (by decide) (by decide)).2 (by decide) (by decide)⟩

/-- C2 (counterexample): `x` resolves in the first document `{"x":1}` and not
in the second document `{}`; the single event printed is `-DEL x`, not
`+ADD x`. -/
theorem C2_counterexample :
    "x" ∉ State.init.compared ∧ blacklisted ⟨[], false⟩ "x" = false ∧
      (resolve gjson docX1 "x").Exists = true ∧ (resolve gjson docEmpty "x").Exists = false ∧
      compareJSON gjson ⟨[], false⟩ docX1 docEmpty 1 "x" State.init
        = .done ⟨["x"], [.del "x"]⟩ ∧
      compareJSON gjson ⟨[], false⟩ docX1 docEmpty 1 "x" State.init
        ≠ .done ⟨["x"], [.add "x"]⟩ := by
  decide

/-- Values of different specification kinds have different gjson types,
unless both have the type `JSON` (an object against an array). -/
theorem typ_ne_of_kind_ne (r1 r2 : Result) (hk : r1.kind ≠ r2.kind)
    (h1 : r1.Exists = true) (h2 : r2.Exists = true)
    (hc : ¬ (r1.typ = GType.JSON ∧ r2.typ = GType.JSON)) : r1.typ ≠ r2.typ := by
  intro ht
  apply hk
  unfold Result.kind
  simp only [h1, h2, Bool.not_true, Bool.false_eq_true, if_false]
  rw [← ht] at hc ⊢
  cases h : r1.typ <;> simp_all

/-- C3 (as amended): on an unvisited, non-blacklisted path at which both
documents have a value and the two values have different kinds, other than an
object against an array (both of gjson type `JSON`), `compareJSON` prints
exactly one event, `!TYP` (TypeMismatch) with the two type names, and returns
without a nested call: the visited set gains that path only. -/
theorem C3_type_mismatch {D : Type} (g : Gjson D) (cfg : Config) (json1 json2 : D)
    (fuel : Nat) (path : String) (st : State)
    (hv : path ∉ st.compared) (hb : blacklisted cfg path = false)
    (h1 : (resolve g json1 path).Exists = true) (h2 : (resolve g json2 path).Exists = true)
    (hk : (resolve g json1 path).kind ≠ (resolve g json2 path).kind)
    (hc : ¬ ((resolve g json1 path).typ = GType.JSON ∧ (resolve g json2 path).typ = GType.JSON)) :
    compareJSON g cfg json1 json2 (fuel + 1) path st =
      .done ⟨path :: st.compared,
        st.out ++ [.typ path (typeString (resolve g json1 path).typ)
          (typeString (resolve g json2 path).typ)]⟩ := by
  have ht := typ_ne_of_kind_ne _ _ hk h1 h2 hc
  rw [compareJSON_terminal g cfg json1 json2 fuel path st hv (by simp [descends, hb, h1, h2, ht])]
  simp [ownEvents, hb, h1, h2, ht]

/-- C3 (witness): Scenario 4, number `1` against string `"1"` at `x`. -/
theorem C3_type_mismatch_witness :
    compareJSON gjson ⟨[], false⟩ docX1 docXStr 1 "x" State.init
      = .done ⟨["x"], [.typ "x" "Number" "String"]⟩ :=
  C3_type_mismatch gjson ⟨[], false⟩ docX1 docXStr 0 "x" State.init
    (by decide) (by decide) (by decide) (by decide) (by decide) (by decide)

/-- C3 (counterexample): at `x` the first document `{"x":{"a":1}}` has an
object and the second `{"x":[2]}` an array; no `!TYP` event is printed and the
child paths `x.a` and `x.0` are visited. -/
theorem C3_counterexample :
    (resolve gjson docXObj "x").kind = Kind.object ∧
      (resolve gjson docXArr "x").kind = Kind.array ∧
      compareJSON gjson ⟨[], false⟩ docXObj docXArr 2 "x" State.init
        = .done ⟨["x.0", "x.a", "x"], [.exs "x", .del "x.a", .add "x.0"]⟩ := by
  decide

theorem kind_string (r : Result) (h : r.kind = Kind.string) :
    r.typ = GType.String := by
  unfold Result.kind at h
  by_cases ha : r.IsArray = true <;> by_cases he : r.Exists = true <;>
    cases ht : r.typ <;> simp [ht, ha, he] at h ⊢

theorem kind_number (r : Result) (h : r.kind = Kind.number) :
    r.typ = GType.Number := by
  unfold Result.kind at h
  by_cases ha : r.IsArray = true <;> by_cases he : r.Exists = true <;>
    cases ht : r.typ <;> simp [ht, ha, he] at h ⊢

/-- Existing values of one specification kind and one serialized form have
one gjson type. -/
theorem typ_eq_of_kind_eq (r1 r2 : Result) (h1 : r1.Exists = true) (h2 : r2.Exists = true)
    (hk : r1.kind = r2.kind) (hs : r1.text = r2.text) : r1.typ = r2.typ := by
  unfold Result.kind at hk
  simp only [h1, h2, Bool.not_true, Bool.false_eq_true, if_false] at hk
  unfold Result.text at hs
  cases ht1 : r1.typ <;> cases ht2 : r2.typ <;> simp [ht1, ht2] at hk hs ⊢ <;>
    (try split at hk) <;> simp_all

/-- C4 (as amended): on an unvisited, non-blacklisted path at which both
documents have a value of the same kind, string or number, with different
serialized forms, `compareJSON` prints the leaf `!EQL` (ValueDiffer) event
carrying `cut(valueA, 1000)` and `cut(valueB, 1000)`, preceded in non-strict
mode by the `:EXS` note, prints no `!TYP` event and returns without a nested
call: the visited set gains that path only. -/
theorem C4_leaf_differ {D : Type} (g : Gjson D) (cfg : Config) (json1 json2 : D)
    (fuel : Nat) (path : String) (st : State)
    (hv : path ∉ st.compared) (hb : blacklisted cfg path = false)
    (h1 : (resolve g json1 path).Exists = true) (h2 : (resolve g json2 path).Exists = true)
    (hk : (resolve g json1 path).kind = (resolve g json2 path).kind)
    (hsc : (resolve g json1 path).kind = Kind.string ∨ (resolve g json1 path).kind = Kind.number)
    (hs : (resolve g json1 path).text ≠ (resolve g json2 path).text) :
    compareJSON g cfg json1 json2 (fuel + 1) path st =
      .done ⟨path :: st.compared,
        st.out ++ (if cfg.strictMode = true then [] else [.exs path]) ++
          [.neq path (cut (resolve g json1 path).text 1000)
            (cut (resolve g json2 path).text 1000)]⟩ := by
  have ht : (resolve g json1 path).typ = (resolve g json2 path).typ ∧
      (resolve g json1 path).typ ≠ GType.JSON := by
    rcases hsc with hc | hc
    · have a := kind_string _ hc
      have b := kind_string _ (hk ▸ hc)
      simp [a, b]
    · have a := kind_number _ hc
      have b := kind_number _ (hk ▸ hc)
      simp [a, b]
  obtain ⟨ht, hj⟩ := ht
  have hj2 : (resolve g json2 path).typ ≠ GType.JSON := ht ▸ hj
  rw [compareJSON_succ g cfg json1 json2 fuel path st hv]
  have hd : descends cfg path (resolve g json1 path) (resolve g json2 path) = true := by
    simp [descends, hb, h1, h2, ht, hs]
  have ho : ∀ r : Result, r.typ ≠ GType.JSON → r.IsObject = false ∧ r.IsArray = false := by
    intro r hr
    simp [Result.IsObject, Result.IsArray, hr]
  obtain ⟨o1, a1⟩ := ho _ hj
  obtain ⟨o2, a2⟩ := ho _ hj2
  rw [hd]
  simp only [if_true, recurse, forEachIf, o1, o2, a1, a2, Bool.false_eq_true, if_false]
  simp [ownEvents, hb, h1, h2, ht, hs, o1, o2, a1, a2, MAX_LEN]
  cases cfg.strictMode <;> simp

/-- C4 (witness): the leaf of Scenario 3, `1` against `2` at `x.y`; the two
values are the bytes of `1` and of `2`. -/
theorem C4_leaf_differ_witness :
    compareJSON gjson ⟨[], false⟩ docXY1 docXY2 1 "x.y" State.init
      = .done ⟨["x.y"], [.exs "x.y", .neq "x.y" [49] [50]]⟩ :=
  C4_leaf_differ gjson ⟨[], false⟩ docXY1 docXY2 0 "x.y" State.init
    (by decide) (by decide) (by decide) (by decide) (by decide) (by decide) (by decide)

/-- C4 (counterexample): at `x` both `{"x":true}` and `{"x":false}` have a
boolean and the serialized forms differ; the event printed is `!TYP`, the
gjson types being `True` and `False`, and no `!EQL` event. -/
theorem C4_counterexample :
    (resolve gjson docXTrue "x").kind = Kind.boolean ∧
      (resolve gjson docXFalse "x").kind = Kind.boolean ∧
      (resolve gjson docXTrue "x").text ≠ (resolve gjson docXFalse "x").text ∧
      compareJSON gjson ⟨[], false⟩ docXTrue docXFalse 1 "x" State.init
        = .done ⟨["x"], [.typ "x" "True" "False"]⟩ := by
  decide

/-- C5 (as amended): on an unvisited, non-blacklisted path at which both
documents have a value of the same kind and the same serialized form,
`compareJSON` prints the `:EXS` note followed by exactly one `=EQL` event in
non-strict mode and nothing in strict mode, and in both modes returns without
a nested call: the visited set gains that path only. -/
theorem C5_equal {D : Type} (g : Gjson D) (cfg : Config) (json1 json2 : D)
    (fuel : Nat) (path : String) (st : State)
    (hv : path ∉ st.compared) (hb : blacklisted cfg path = false)
    (h1 : (resolve g json1 path).Exists = true) (h2 : (resolve g json2 path).Exists = true)
    (hk : (resolve g json1 path).kind = (resolve g json2 path).kind)
    (hs : (resolve g json1 path).text = (resolve g json2 path).text) :
    compareJSON g cfg json1 json2 (fuel + 1) path st =
      .done ⟨path :: st.compared,
        st.out ++ (if cfg.strictMode = true then [] else [.exs path, .eql path])⟩ := by
  have ht := typ_eq_of_kind_eq _ _ h1 h2 hk hs
  rw [compareJSON_terminal g cfg json1 json2 fuel path st hv (by simp [descends, hb, h1, h2, ht, hs])]
  simp [ownEvents, hb, h1, h2, ht, hs]
  cases cfg.strictMode <;> simp

/-- C5 (witness): `1` against `1` at `x` in non-strict mode. -/
theorem C5_equal_witness :
    compareJSON gjson ⟨[], false⟩ docX1 docX1 1 "x" State.init
      = .done ⟨["x"], [.exs "x", .eql "x"]⟩ :=
  C5_equal gjson ⟨[], false⟩ docX1 docX1 0 "x" State.init
    (by decide) (by decide) (by decide) (by decide) (by decide) (by decide)

/-- C5 (counterexample): in strict mode `1` against `1` at `x` prints no event
at all. -/
theorem C5_counterexample :
    (resolve gjson docX1 "x").Exists = true ∧
      (resolve gjson docX1 "x").kind = (resolve gjson docX1 "x").kind ∧
      (resolve gjson docX1 "x").text = (resolve gjson docX1 "x").text ∧
      compareJSON gjson ⟨[], true⟩ docX1 docX1 1 "x" State.init = .done ⟨["x"], []⟩ := by
  decide

/-! ## The visited set only grows -/

/-- A path in the visited set stays there for the rest of the run. -/
theorem compared_preserved {D : Type} (g : Gjson D) (cfg : Config) (json1 json2 : D)
    (q : String) (fuel : Nat) (path : String) (st : State) (h : q ∈ st.compared) :
    q ∈ (compareJSON g cfg json1 json2 fuel path st).state.compared :=
  compareJSON_preserves g cfg json1 json2 (fun s => q ∈ s.compared)
    (fun _ _ hs _ => List.mem_cons_of_mem _ hs) fuel path st h

/-- A call that returns leaves its path in the visited set. -/
theorem compared_of_done {D : Type} (g : Gjson D) (cfg : Config) (json1 json2 : D)
    (fuel : Nat) (path : String) (st st1 : State)
    (h : compareJSON g cfg json1 json2 fuel path st = .done st1) : path ∈ st1.compared := by
  cases fuel with
  | zero => simp [compareJSON_zero] at h
  | succ n =>
    by_cases hv : path ∈ st.compared
    · rw [compareJSON_visited g cfg json1 json2 n path st hv] at h
      cases h
      exact hv
    · have key : path ∈ (compareJSON g cfg json1 json2 (n + 1) path st).state.compared := by
        rw [compareJSON_succ g cfg json1 json2 n path st hv]
        split
        · exact recurse_preserves (fun s => path ∈ s.compared) _
            (fun p s hs => compared_preserved g cfg json1 json2 path n p s hs) path _ _ _
            (List.mem_cons_self _ _)
        · exact List.mem_cons_self _ _
      rw [h] at key
      exact key

theorem forEach_done_visits {D : Type} (g : Gjson D) (cfg : Config) (json1 json2 : D)
    (fuel : Nat) (path : String) :
    ∀ (ks : List String) (st st1 : State),
      forEach (fun key s => compareJSON g cfg json1 json2 fuel (appendPath path key) s) ks st
        = .done st1 →
      ∀ k ∈ ks, appendPath path k ∈ st1.compared := by
  intro ks
  induction ks with
  | nil => intro st st1 _ k hk; simp at hk
  | cons k0 ks ih =>
    intro st st1 h k hk
    simp only [forEach] at h
    cases hk0 : compareJSON g cfg json1 json2 fuel (appendPath path k0) st with
    | overflow s => simp [hk0] at h
    | done s =>
      simp only [hk0] at h
      rcases List.mem_cons.1 hk with rfl | hk
      · have hm := compared_of_done g cfg json1 json2 fuel _ st s hk0
        have := forEach_preserves (fun x => appendPath path k ∈ x.compared)
          (fun key s => compareJSON g cfg json1 json2 fuel (appendPath path key) s)
          (fun k1 x hx => compared_preserved g cfg json1 json2 _ fuel (appendPath path k1) x hx)
          ks s hm
        rw [h] at this
        exact this
      · exact ih s st1 h k hk

theorem forEachIf_done {D : Type} (g : Gjson D) (cfg : Config) (json1 json2 : D)
    (fuel : Nat) (path : String) (b : Bool) (ks : List String) (run : Run) (st1 : State)
    (h : forEachIf b (fun key s => compareJSON g cfg json1 json2 fuel (appendPath path key) s)
      ks run = .done st1) :
    ∃ st0, run = .done st0 ∧ (∀ q ∈ st0.compared, q ∈ st1.compared) ∧
      (b = true → ∀ k ∈ ks, appendPath path k ∈ st1.compared) := by
  cases run with
  | overflow s => simp [forEachIf] at h
  | done s =>
    refine ⟨s, rfl, ?_, ?_⟩
    · intro q hq
      have := forEachIf_preserves (fun x => q ∈ x.compared)
        (fun key s => compareJSON g cfg json1 json2 fuel (appendPath path key) s)
        (fun k1 x hx => compared_preserved g cfg json1 json2 q fuel (appendPath path k1) x hx)
        b ks (.done s) hq
      rw [h] at this
      exact this
    · intro hb
      subst hb
      simp only [forEachIf, if_true] at h
      exact forEach_done_visits g cfg json1 json2 fuel path ks s st1 h

theorem forEach_returns (f : String → State → Run) :
    ∀ (ks : List String), (∀ k ∈ ks, ∀ s, ∃ s1, f k s = .done s1) →
      ∀ st, ∃ st1, forEach f ks st = .done st1 := by
  intro ks
  induction ks with
  | nil => intro _ st; exact ⟨st, rfl⟩
  | cons k ks ih =>
    intro h st
    obtain ⟨s1, h1⟩ := h k (List.mem_cons_self _ _) st
    obtain ⟨s2, h2⟩ := ih (fun k1 hk1 => h k1 (List.mem_cons_of_mem _ hk1)) s1
    exact ⟨s2, by simp only [forEach, h1, h2]⟩

theorem forEachIf_returns (b : Bool) (f : String → State → Run) (ks : List String)
    (h : ∀ k ∈ ks, ∀ s, ∃ s1, f k s = .done s1) (run : Run) (hrun : ∃ s, run = .done s) :
    ∃ st1, forEachIf b f ks run = .done st1 := by
  obtain ⟨s, rfl⟩ := hrun
  cases b with
  | false => exact ⟨s, rfl⟩
  | true => exact forEach_returns f ks h s

/-- When the child paths descend in rank, a call returns within a nesting
bound of one more than the rank of its path. -/
theorem compareJSON_returns {D : Type} (g : Gjson D) (cfg : Config) (json1 json2 : D)
    (rank : String → Nat) (hd : Descending g cfg json1 json2 rank) :
    ∀ (n : Nat) (path : String) (st : State), rank path < n →
      ∃ st1, compareJSON g cfg json1 json2 n path st = .done st1 := by
  intro n
  induction n with
  | zero => intro path st h; omega
  | succ n ih =>
    intro path st hr
    by_cases hv : path ∈ st.compared
    · exact ⟨st, compareJSON_visited g cfg json1 json2 n path st hv⟩
    · rw [compareJSON_succ g cfg json1 json2 n path st hv]
      split
      · rename_i hdesc
        have hk : ∀ r : Result, (∀ k ∈ r.keys, rank (appendPath path k) < rank path) →
            ∀ k ∈ r.keys, ∀ s, ∃ s1,
              (fun key s => compareJSON g cfg json1 json2 n (appendPath path key) s) k s
                = .done s1 :=
          fun r hlt k hk s => ih (appendPath path k) s (by have := hlt k hk; omega)
        have hk1 := hk _ (fun k hk => hd path hdesc k (Or.inl hk))
        have hk2 := hk _ (fun k hk => hd path hdesc k (Or.inr hk))
        unfold recurse
        exact forEachIf_returns _ _ _ hk2 _ (forEachIf_returns _ _ _ hk1 _
          (forEachIf_returns _ _ _ hk2 _ (forEachIf_returns _ _ _ hk1 _ ⟨_, rfl⟩)))
      · exact ⟨_, rfl⟩

/-- Partial correctness of the fan-out: on an unvisited, non-blacklisted path
at which both documents have a container (object or array) with different
serialized forms, a call of `compareJSON` that returns has visited
`appendPath path k` for every key or index `k` of either container; and the
call does return, within a nesting bound of `rank path + 1`, whenever the
child paths descend in some rank. -/
theorem children_visited_of_done {D : Type} (g : Gjson D) (cfg : Config) (json1 json2 : D)
    (path : String) (st : State)
    (hv : path ∉ st.compared) (hb : blacklisted cfg path = false)
    (hc1 : (resolve g json1 path).IsObject = true ∨ (resolve g json1 path).IsArray = true)
    (hc2 : (resolve g json2 path).IsObject = true ∨ (resolve g json2 path).IsArray = true)
    (hs : (resolve g json1 path).text ≠ (resolve g json2 path).text) :
    (∀ (fuel : Nat) (st1 : State),
      compareJSON g cfg json1 json2 fuel path st = .done st1 →
      ∀ k, k ∈ (resolve g json1 path).keys ∨ k ∈ (resolve g json2 path).keys →
        appendPath path k ∈ st1.compared) ∧
    (∀ rank : String → Nat, Descending g cfg json1 json2 rank →
      ∃ st1, compareJSON g cfg json1 json2 (rank path + 1) path st = .done st1) := by
  refine ⟨?_, fun rank hd =>
    compareJSON_returns g cfg json1 json2 rank hd (rank path + 1) path st (Nat.lt_succ_self _)⟩
  intro fuel st1 hrun
  cases fuel with
  | zero => simp [compareJSON_zero] at hrun
  | succ n =>
    have hj : ∀ r : Result, r.IsObject = true ∨ r.IsArray = true →
        r.typ = GType.JSON ∧ r.Exists = true := by
      intro r hr
      have : r.typ = GType.JSON := by
        rcases hr with hr | hr
        · simp [Result.IsObject] at hr; exact hr.1
        · simp [Result.IsArray] at hr; exact hr.1
      simp [Result.Exists, this]
    obtain ⟨t1, e1⟩ := hj _ hc1
    obtain ⟨t2, e2⟩ := hj _ hc2
    have hd : descends cfg path (resolve g json1 path) (resolve g json2 path) = true := by
      simp [descends, hb, e1, e2, t1, t2, hs]
    rw [compareJSON_succ g cfg json1 json2 n path st hv, hd] at hrun
    simp only [if_true, recurse] at hrun
    obtain ⟨s3, h3, m4, v4⟩ := forEachIf_done g cfg json1 json2 n path _ _ _ st1 hrun
    obtain ⟨s2, h2, m3, v3⟩ := forEachIf_done g cfg json1 json2 n path _ _ _ s3 h3
    obtain ⟨s1, h1, m2, v2⟩ := forEachIf_done g cfg json1 json2 n path _ _ _ s2 h2
    obtain ⟨s0, _, m1, v1⟩ := forEachIf_done g cfg json1 json2 n path _ _ _ s1 h1
    intro k hk
    rcases hk with hk | hk
    · rcases hc1 with hc | hc
      · exact m4 _ (m3 _ (m2 _ (v1 hc k hk)))
      · exact m4 _ (v3 hc k hk)
    · rcases hc2 with hc | hc
      · exact m4 _ (m3 _ (v2 hc k hk))
      · exact v4 hc k hk

/-! ## The path codec -/

/-- C7 (failing input): the key sequence `a\`, `b` and the single key `a.b`
are different and fold under `appendPath`, from the empty path, to the same
canonical string `a\.b`; so do the pairs (parent `a\`, key `b`) and (parent
empty, key `a.b`). An empty key collides as well: the sequences with and
without a leading empty key give the same path, and the empty key alone gives
the path of the root. -/
theorem C7_collision :
    ["a\\", "b"] ≠ ["a.b"] ∧
      List.foldl appendPath "" ["a\\", "b"] = "a\\.b" ∧
      List.foldl appendPath "" ["a.b"] = "a\\.b" ∧
      appendPath "a\\" "b" = appendPath "" "a.b" ∧
      List.foldl appendPath "" ["", "a"] = List.foldl appendPath "" ["a"] ∧
      List.foldl appendPath "" [""] = List.foldl appendPath "" [] := by
  decide

/-! ## The blacklist -/

theorem containsChars_iff (sub l : List Char) :
    containsChars sub l = true ↔ ∃ s t, l = s ++ sub ++ t := by
  induction l with
  | nil =>
    simp only [containsChars, List.isEmpty_iff]
    constructor
    · intro h; exact ⟨[], [], by simp [h]⟩
    · rintro ⟨s, t, h⟩
      have := congrArg List.length h
      simp at this
      exact List.length_eq_zero.1 (by omega)
  | cons c cs ih =>
    simp only [containsChars, Bool.or_eq_true, ih]
    constructor
    · rintro (h | ⟨s, t, h⟩)
      · obtain ⟨t, ht⟩ := List.isPrefixOf_iff_prefix.1 h
        exact ⟨[], t, by simp [ht]⟩
      · exact ⟨c :: s, t, by simp [h]⟩
    · rintro ⟨s, t, h⟩
      cases s with
      | nil =>
        left
        exact List.isPrefixOf_iff_prefix.2 ⟨t, by simpa using h.symm⟩
      | cons d s =>
        right
        simp at h
        exact ⟨s, t, by simp [h.2]⟩

/-- `strings.Contains(s, sub)` holds exactly when `sub` occurs in `s`. -/
theorem strContains_iff (s sub : String) :
    strContains s sub = true ↔ ∃ a b : String, s = a ++ sub ++ b := by
  unfold strContains
  rw [containsChars_iff]
  constructor
  · rintro ⟨a, b, h⟩
    exact ⟨⟨a⟩, ⟨b⟩, String.ext (by simpa using h)⟩
  · rintro ⟨a, b, h⟩
    exact ⟨a.data, b.data, by simp [h]⟩

/-- A path is blacklisted exactly when some blacklist entry occurs in it. -/
theorem blacklisted_iff (cfg : Config) (path : String) :
    blacklisted cfg path = true ↔
      ∃ b ∈ cfg.blacklist, ∃ s t : String, path = s ++ b ++ t := by
  simp [blacklisted, strContains_iff]

theorem ownEvents_blk (cfg : Config) (path q : String) (r1 r2 : Result)
    (h : Event.blk q ∈ ownEvents cfg path r1 r2) : blacklisted cfg q = true := by
  unfold ownEvents at h
  by_cases hb : blacklisted cfg path = true
  · simp [hb] at h; subst h; exact hb
  · simp only [hb] at h
    simp only [Bool.false_eq_true, if_false] at h
    split_ifs at h <;> simp at h

/-- A `!BLK` event is only ever printed for a blacklisted path. -/
theorem blk_only_blacklisted {D : Type} (g : Gjson D) (cfg : Config) (json1 json2 : D)
    (fuel : Nat) (start : String) (q : String)
    (h : Event.blk q ∈ (compareJSON g cfg json1 json2 fuel start State.init).state.out) :
    blacklisted cfg q = true := by
  have := compareJSON_preserves g cfg json1 json2
    (fun s => ∀ p, Event.blk p ∈ s.out → blacklisted cfg p = true)
    (fun path st hst _ p hp => by
      rcases List.mem_append.1 hp with hp | hp
      · exact hst p hp
      · exact ownEvents_blk cfg path p _ _ hp)
    fuel start State.init (by simp [State.init])
  exact this q h

/-- C8: on an unvisited path that contains some blacklist entry as a
substring, `compareJSON` prints exactly one event, `!BLK` for that path, and
returns without a nested call (the visited set gains that path only); the
result is the same for every gjson and every pair of documents, which are not
consulted. A path that contains no blacklist entry never gets a `!BLK` event
in a run from a fresh state. -/
theorem C8_blacklist {D : Type} (g : Gjson D) (cfg : Config) (json1 json2 : D)
    (fuel : Nat) (path : String) (st : State) (hv : path ∉ st.compared)
    (hb : ∃ b ∈ cfg.blacklist, ∃ s t : String, path = s ++ b ++ t) :
    compareJSON g cfg json1 json2 (fuel + 1) path st
        = .done ⟨path :: st.compared, st.out ++ [.blk path]⟩ ∧
      (∀ (E : Type) (g2 : Gjson E) (doc1 doc2 : E),
        compareJSON g2 cfg doc1 doc2 (fuel + 1) path st
          = compareJSON g cfg json1 json2 (fuel + 1) path st) ∧
      (∀ (q start : String) (n : Nat),
        (¬ ∃ b ∈ cfg.blacklist, ∃ s t : String, q = s ++ b ++ t) →
        Event.blk q ∉ (compareJSON g cfg json1 json2 n start State.init).state.out) := by
  have hbl := (blacklisted_iff cfg path).2 hb
  have key : ∀ (E : Type) (g2 : Gjson E) (doc1 doc2 : E),
      compareJSON g2 cfg doc1 doc2 (fuel + 1) path st
        = .done ⟨path :: st.compared, st.out ++ [.blk path]⟩ := by
    intro E g2 doc1 doc2
    rw [compareJSON_terminal g2 cfg doc1 doc2 fuel path st hv (by simp [descends, hbl])]
    simp [ownEvents, hbl]
  refine ⟨key D g json1 json2, ?_, ?_⟩
  · intro E g2 doc1 doc2
    rw [key E g2 doc1 doc2, key D g json1 json2]
  · intro q start n hq hmem
    exact hq ((blacklisted_iff cfg q).1 (blk_only_blacklisted g cfg json1 json2 n start q hmem))

/-- C8 (witness): Scenario 5, blacklist `secret`, at the path of the key
`secret.token`. -/
theorem C8_blacklist_witness :
    compareJSON gjson ⟨["secret"], false⟩ docSecretAbc docSecretXyz 1 "secret\\.token"
        State.init
      = .done ⟨["secret\\.token"], [.blk "secret\\.token"]⟩ :=
  (C8_blacklist gjson ⟨["secret"], false⟩ docSecretAbc docSecretXyz 0 "secret\\.token"
    State.init (by decide) ⟨"secret", by decide, "", "\\.token", by decide⟩).1

theorem ownEvents_blacklisted (cfg : Config) (path : String) (r1 r2 : Result)
    (h : blacklisted cfg path = true) : ownEvents cfg path r1 r2 = [.blk path] := by
  simp [ownEvents, h]

/-- An event on a blacklisted path is always the `!BLK` event. -/
theorem blacklisted_only_blk {D : Type} (g : Gjson D) (cfg : Config) (json1 json2 : D)
    (fuel : Nat) (start : String) :
    ∀ e ∈ (compareJSON g cfg json1 json2 fuel start State.init).state.out,
      blacklisted cfg e.path = true → e = .blk e.path :=
  compareJSON_preserves g cfg json1 json2
    (fun s => ∀ e ∈ s.out, blacklisted cfg e.path = true → e = .blk e.path)
    (fun path st hst _ e he hb => by
      rcases List.mem_append.1 he with he | he
      · exact hst e he hb
      · have hp := ownEvents_path cfg path _ _ e he
        rw [hp] at hb
        rw [ownEvents_blacklisted cfg path _ _ hb] at he
        simp at he
        rw [hp, he])
    fuel start State.init (by simp [State.init])

/-- A child of a blacklisted path is blacklisted. -/
theorem blacklisted_appendPath (cfg : Config) (p key : String)
    (h : blacklisted cfg p = true) : blacklisted cfg (appendPath p key) = true := by
  rw [blacklisted_iff] at h ⊢
  obtain ⟨b, hb, s, t, hp⟩ := h
  refine ⟨b, hb, ?_⟩
  unfold appendPath
  split
  · rename_i he
    rw [he] at hp
    have hd := congrArg String.data hp
    simp at hd
    have hb0 : b = "" := String.ext (by simpa using hd.2.1)
    exact ⟨"", escapePath key, by simp [hb0]⟩
  · exact ⟨s, t ++ "." ++ escapePath key, by rw [hp]; simp [String.append_assoc]⟩

/-- Every descendant of a blacklisted path is blacklisted. -/
theorem blacklisted_descendant (cfg : Config) (keys : List String) :
    ∀ p : String, blacklisted cfg p = true → blacklisted cfg (descendant p keys) = true := by
  induction keys with
  | nil => intro p h; exact h
  | cons k ks ih =>
    intro p h
    exact ih (appendPath p k) (blacklisted_appendPath cfg p k h)

/-! ## A run that never returns -/

theorem thisPath_data (k : Nat) : (thisPath k).data = thisChars k := by
  induction k with
  | zero => rfl
  | succ k ih =>
    have hne : thisPath k ≠ "" := by
      intro h
      have := congrArg String.data h
      rw [ih] at this
      cases k <;> simp [thisChars] at this
    have he : escapePath "@this" = "@this" := by decide
    simp only [thisPath, appendPath, hne, if_false, he, String.data_append, ih, thisChars]
    simp

theorem thisChars_succ (k : Nat) :
    thisChars (k + 1) = "@this".data ++ '.' :: thisChars k := by
  induction k with
  | zero => rfl
  | succ k ih =>
    show thisChars (k + 1) ++ ".@this".data
      = "@this".data ++ '.' :: (thisChars k ++ ".@this".data)
    rw [ih]
    simp

theorem thisChars_length (k : Nat) : (thisChars k).length = 5 + 6 * k := by
  induction k with
  | zero => rfl
  | succ k ih => simp [thisChars, ih]; omega

theorem thisPath_ne (j k : Nat) (h : j ≠ k) : thisPath j ≠ thisPath k := by
  intro he
  have := congrArg (fun s => s.data.length) he
  simp only [thisPath_data, thisChars_length] at this
  omega

theorem thisPath_ne_empty (k : Nat) : thisPath k ≠ "" := by
  intro he
  have := congrArg (fun s => s.data.length) he
  simp only [thisPath_data, thisChars_length] at this
  simp at this

/-- Under the `@this` modifier every path `thisPath k` resolves to the
document itself. -/
theorem getPath_this (json : JVal) :
    ∀ (k n : Nat), k < n → getPath n json (thisChars k) = some json := by
  intro k
  induction k with
  | zero =>
    intro n hn
    cases n with
    | zero => omega
    | succ n => simp [getPath, thisChars, modifierName]
  | succ k ih =>
    intro n hn
    cases n with
    | zero => omega
    | succ n =>
      rw [thisChars_succ]
      simp [getPath, modifierName]
      exact ih n (by omega)

theorem resolve_this (json : JVal) (k : Nat) :
    resolve gjson json (thisPath k) = json.result := by
  simp only [resolve, thisPath_ne_empty, if_false, gjson]
  have hl : (thisPath k).length = (thisChars k).length := by
    rw [← thisPath_data]; rfl
  rw [thisPath_data, getPath_this json k _ (by rw [hl, thisChars_length]; omega)]
  rfl

theorem forEachIf_overflow (b : Bool) (f : String → State → Run) (ks : List String)
    (st : State) : forEachIf b f ks (.overflow st) = .overflow st := rfl

/-- On `{"@this":1}` against `{"@this":2}` a call on `thisPath k` exceeds
every nesting bound, as long as the longer paths of that form are unvisited. -/
theorem overflow_this (cfg : Config) (hbl : cfg.blacklist = []) :
    ∀ (n k : Nat) (st : State), (∀ j, k ≤ j → thisPath j ∉ st.compared) →
      ∃ st1, compareJSON gjson cfg docThis1 docThis2 n (thisPath k) st = .overflow st1 := by
  intro n
  induction n with
  | zero => intro k st _; exact ⟨st, rfl⟩
  | succ n ih =>
    intro k st hfree
    have hv := hfree k (Nat.le_refl k)
    have hb : blacklisted cfg (thisPath k) = false := by simp [blacklisted, hbl]
    rw [compareJSON_succ gjson cfg docThis1 docThis2 n (thisPath k) st hv]
    rw [resolve_this, resolve_this]
    have hd : descends cfg (thisPath k) docThis1.result docThis2.result = true := by
      simp only [descends, hb]
      decide
    have ho1 : docThis1.result.IsObject = true := by decide
    have hk1 : docThis1.result.keys = ["@this"] := by decide
    obtain ⟨st1, h1⟩ := ih (k + 1)
      ⟨thisPath k :: st.compared,
        st.out ++ ownEvents cfg (thisPath k) docThis1.result docThis2.result⟩
      (by
        intro j hj
        simp only [List.mem_cons, not_or]
        exact ⟨thisPath_ne j k (by omega), hfree j (by omega)⟩)
    refine ⟨st1, ?_⟩
    rw [hd]
    simp only [if_true, recurse, ho1, hk1, forEachIf, forEach]
    have hstep : appendPath (thisPath k) "@this" = thisPath (k + 1) := rfl
    rw [hstep, h1]

/-- C10 (failing input): on the documents `{"@this":1}` and `{"@this":2}`,
with an empty blacklist and in either mode, the run of `compareJSON` from the
root exceeds every bound on the nesting of calls: the recursion never ends. -/
theorem C10_no_termination (strict : Bool) (fuel : Nat) :
    ∃ st, compareJSON gjson ⟨[], strict⟩ docThis1 docThis2 fuel "" State.init
      = .overflow st := by
  cases fuel with
  | zero => exact ⟨State.init, rfl⟩
  | succ n =>
    have hv : "" ∉ State.init.compared := by simp [State.init]
    rw [compareJSON_succ gjson ⟨[], strict⟩ docThis1 docThis2 n "" State.init hv]
    have hr1 : resolve gjson docThis1 "" = docThis1.result := rfl
    have hr2 : resolve gjson docThis2 "" = docThis2.result := rfl
    rw [hr1, hr2]
    have hd : descends ⟨[], strict⟩ "" docThis1.result docThis2.result = true := by
      cases strict <;> decide
    have ho1 : docThis1.result.IsObject = true := by decide
    have hk1 : docThis1.result.keys = ["@this"] := by decide
    obtain ⟨st1, h1⟩ := overflow_this ⟨[], strict⟩ rfl n 0
      ⟨"" :: State.init.compared,
        State.init.out ++ ownEvents ⟨[], strict⟩ "" docThis1.result docThis2.result⟩
      (by
        intro j _
        simp only [State.init, List.mem_cons, List.not_mem_nil, or_false]
        exact thisPath_ne_empty j)
    refine ⟨st1, ?_⟩
    rw [hd]
    simp only [if_true, recurse, ho1, hk1, forEachIf, forEach]
    have hstep : appendPath "" "@this" = thisPath 0 := by decide
    rw [hstep, h1]

/-! ## Strict mode -/

theorem ownEvents_strict_filter (bl : List String) (path : String) (r1 r2 : Result) :
    ownEvents ⟨bl, true⟩ path r1 r2
      = (ownEvents ⟨bl, false⟩ path r1 r2).filter Event.keptInStrict := by
  unfold ownEvents
  have hb : blacklisted ⟨bl, true⟩ path = blacklisted ⟨bl, false⟩ path := rfl
  rw [hb]
  split_ifs <;> simp_all [Event.keptInStrict, Event.isExs, Event.isEql]

theorem descends_strict (bl : List String) (path : String) (r1 r2 : Result) :
    descends ⟨bl, true⟩ path r1 r2 = descends ⟨bl, false⟩ path r1 r2 := rfl

theorem forEach_strictOf (f h : String → State → Run)
    (hfh : ∀ k s n, StrictOf s n → RunStrictOf (f k s) (h k n)) :
    ∀ (ks : List String) (s n : State), StrictOf s n →
      RunStrictOf (forEach f ks s) (forEach h ks n) := by
  intro ks
  induction ks with
  | nil => intro s n hsn; exact hsn
  | cons k ks ih =>
    intro s n hsn
    have hk := hfh k s n hsn
    simp only [forEach]
    cases hf : f k s <;> cases hh : h k n <;> rw [hf, hh] at hk <;>
      simp only [RunStrictOf] at hk ⊢
    · exact ih _ _ hk
    · exact hk

theorem forEachIf_strictOf (b : Bool) (f h : String → State → Run)
    (hfh : ∀ k s n, StrictOf s n → RunStrictOf (f k s) (h k n))
    (ks : List String) (rs rn : Run) (hr : RunStrictOf rs rn) :
    RunStrictOf (forEachIf b f ks rs) (forEachIf b h ks rn) := by
  cases rs <;> cases rn <;> simp only [RunStrictOf] at hr
  · cases b
    · exact hr
    · exact forEach_strictOf f h hfh ks _ _ hr
  · exact hr

/-- The strict-mode run and the non-strict run proceed in step. -/
theorem compareJSON_strictOf {D : Type} (g : Gjson D) (bl : List String) (json1 json2 : D) :
    ∀ (fuel : Nat) (path : String) (s n : State), StrictOf s n →
      RunStrictOf (compareJSON g ⟨bl, true⟩ json1 json2 fuel path s)
        (compareJSON g ⟨bl, false⟩ json1 json2 fuel path n) := by
  intro fuel
  induction fuel with
  | zero => intro path s n hsn; exact hsn
  | succ m ih =>
    intro path s n hsn
    by_cases hv : path ∈ n.compared
    · rw [compareJSON_visited g _ json1 json2 m path n hv,
        compareJSON_visited g _ json1 json2 m path s (hsn.1 ▸ hv)]
      exact hsn
    · have hvs : path ∉ s.compared := hsn.1 ▸ hv
      rw [compareJSON_succ g _ json1 json2 m path n hv,
        compareJSON_succ g _ json1 json2 m path s hvs, descends_strict]
      have hst : StrictOf
          ⟨path :: s.compared,
            s.out ++ ownEvents ⟨bl, true⟩ path (resolve g json1 path) (resolve g json2 path)⟩
          ⟨path :: n.compared,
            n.out ++ ownEvents ⟨bl, false⟩ path (resolve g json1 path) (resolve g json2 path)⟩ := by
        refine ⟨by simp [hsn.1], ?_⟩
        simp only [List.filter_append, ownEvents_strict_filter, hsn.2]
      split
      · unfold recurse
        have hcb : ∀ k s n, StrictOf s n → RunStrictOf
            ((fun key s => compareJSON g ⟨bl, true⟩ json1 json2 m (appendPath path key) s) k s)
            ((fun key s => compareJSON g ⟨bl, false⟩ json1 json2 m (appendPath path key) s) k n) :=
          fun k s n h => ih (appendPath path k) s n h
        exact forEachIf_strictOf _ _ _ hcb _ _ _ (forEachIf_strictOf _ _ _ hcb _ _ _
          (forEachIf_strictOf _ _ _ hcb _ _ _
            (forEachIf_strictOf _ _ _ hcb _ (.done _) (.done _) hst)))
      · exact hst

/-- C11: for every pair of documents, blacklist and start path (and every
nesting bound), the events of the strict-mode run from a fresh state are the
events of the non-strict run with the `=EQL` and `:EXS` events removed, in
the same order; both runs end with the same visited set, and the one returns
exactly when the other does. Every other event (`!BLK`, `!EBT`, `+ADD`,
`-DEL`, `!TYP`, `!EQL`) is kept. -/
theorem C11_strict_mode {D : Type} (g : Gjson D) (bl : List String) (json1 json2 : D)
    (fuel : Nat) (start : String) :
    (compareJSON g ⟨bl, true⟩ json1 json2 fuel start State.init).state.out
        = (compareJSON g ⟨bl, false⟩ json1 json2 fuel start State.init).state.out.filter
            (fun e => !e.isExs && !e.isEql) ∧
      (compareJSON g ⟨bl, true⟩ json1 json2 fuel start State.init).state.compared
        = (compareJSON g ⟨bl, false⟩ json1 json2 fuel start State.init).state.compared ∧
      ((∃ s, compareJSON g ⟨bl, true⟩ json1 json2 fuel start State.init = .done s) ↔
        ∃ n, compareJSON g ⟨bl, false⟩ json1 json2 fuel start State.init = .done n) ∧
      (∀ e, e.isExs = false → e.isEql = false →
        (e ∈ (compareJSON g ⟨bl, true⟩ json1 json2 fuel start State.init).state.out ↔
          e ∈ (compareJSON g ⟨bl, false⟩ json1 json2 fuel start State.init).state.out)) := by
  have h := compareJSON_strictOf g bl json1 json2 fuel start State.init State.init
    ⟨rfl, by simp [State.init]⟩
  cases hs : compareJSON g ⟨bl, true⟩ json1 json2 fuel start State.init <;>
    cases hn : compareJSON g ⟨bl, false⟩ json1 json2 fuel start State.init <;>
    rw [hs, hn] at h <;> simp only [RunStrictOf] at h
  all_goals
    obtain ⟨hc, ho⟩ := h
    refine ⟨ho, hc, by simp, ?_⟩
    intro e h1 h2
    simp only [Run.state, ho, List.mem_filter, Event.keptInStrict, h1, h2]
    simp

/-! ## Truncation -/

theorem goBytes_length (s : String) : (goBytes s).length = s.utf8ByteSize := by
  obtain ⟨l⟩ := s
  simp only [goBytes, List.length_map]
  induction l with
  | nil => rfl
  | cons c cs ih =>
    simp only [List.flatMap_cons, List.length_append, String.length_utf8EncodeChar, ih]
    simp [String.utf8ByteSize, String.utf8ByteSize.go]
    omega

theorem goBytes_append (s t : String) : goBytes (s ++ t) = goBytes s ++ goBytes t := by
  simp [goBytes]

theorem utf8EncodeChar_ascii (c : Char) (h : c.toNat < 128) :
    (String.utf8EncodeChar c).map UInt8.toNat = [c.toNat] := by
  have hn : c.val.toNat < 128 := h
  have hv : c.val ≤ 0x7f := by
    show c.val.toNat ≤ 127
    omega
  simp only [String.utf8EncodeChar, hv, if_true, List.map_cons, List.map_nil]
  simp [UInt32.toUInt8, UInt8.toNat, Nat.toUInt8, UInt8.ofNat, Char.toNat]
  omega

/-- On characters below 128 the bytes of a string are its characters. -/
theorem goBytes_ascii (l : List Char) (h : ∀ c ∈ l, c.toNat < 128) :
    goBytes ⟨l⟩ = l.map Char.toNat := by
  induction l with
  | nil => rfl
  | cons c cs ih =>
    have h1 := utf8EncodeChar_ascii c (h c (List.mem_cons_self _ _))
    have h2 := ih (fun d hd => h d (List.mem_cons_of_mem _ hd))
    simp only [goBytes, List.flatMap_cons, List.map_append, List.map_cons] at h2 ⊢
    rw [h1, h2]
    rfl

/-- C12 (as amended): for every string `s` and the limit 1000, if `s` is
longer than 1000 bytes then `cut(s, 1000)` is exactly the first 1000 bytes of
`s` followed by the marker `...(L bytes)` with `L` the decimal byte length of
`s`, and otherwise `cut(s, 1000) = s`; the byte length is the length of the
UTF-8 encoding. For a string of characters below 128 bytes and characters
coincide: if it is longer than 1000 characters, `cut` gives its first 1000
characters followed by the marker, and otherwise the string itself. -/
theorem C12_cut_bytes (s : String) :
    (goBytes s).length = s.utf8ByteSize ∧
      ((goBytes s).length > 1000 →
        cut s 1000 = (goBytes s).take 1000 ++
          goBytes ("...(" ++ toString (goBytes s).length ++ " bytes)")) ∧
      ((goBytes s).length ≤ 1000 → cut s 1000 = goBytes s) ∧
      ((∀ c ∈ s.data, c.toNat < 128) →
        (s.length > 1000 →
          cut s 1000 = goBytes (⟨s.data.take 1000⟩ ++ "...(" ++ toString s.length ++ " bytes)")) ∧
        (s.length ≤ 1000 → cut s 1000 = goBytes s)) := by
  refine ⟨goBytes_length s, ?_, ?_, ?_⟩
  · intro h
    simp [cut, h]
  · intro h
    simp [cut, Nat.not_lt.2 h]
  · intro hascii
    obtain ⟨l⟩ := s
    have hb := goBytes_ascii l hascii
    have hlen : (goBytes ⟨l⟩).length = l.length := by rw [hb, List.length_map]
    have hs : (String.mk l).length = l.length := rfl
    constructor
    · intro h
      rw [hs] at h ⊢
      have ht : goBytes ⟨l.take 1000⟩ = (goBytes ⟨l⟩).take 1000 := by
        rw [hb, goBytes_ascii _ (fun c hc => hascii c (List.mem_of_mem_take hc)), List.map_take]
      simp only [cut, hlen, h, if_true, String.append_assoc, goBytes_append, ht]
    · intro h
      rw [hs] at h
      simp [cut, hlen, Nat.not_lt.2 h]

/-- C12 (counterexample): a string of 501 two-byte characters is not longer
than 1000 characters, yet `cut` does not return it unchanged: its 1002 bytes
are cut to 1000 and the marker is appended (1015 bytes in all). -/
theorem C12_counterexample :
    twoByteString.length = 501 ∧ ¬ twoByteString.length > 1000 ∧
      (goBytes twoByteString).length = 1002 ∧
      (cut twoByteString 1000).length = 1015 ∧
      cut twoByteString 1000 ≠ goBytes twoByteString := by
  have hl : twoByteString.length = 501 := List.length_replicate 501 _
  have hrep : ∀ n : Nat,
      ((List.replicate n (Char.ofNat 233)).flatMap String.utf8EncodeChar).length = 2 * n := by
    intro n
    induction n with
    | zero => rfl
    | succ n ih =>
      rw [List.replicate_succ, List.flatMap_cons, List.length_append, ih]
      have : (String.utf8EncodeChar (Char.ofNat 233)).length = 2 := by decide
      omega
  have hb : (goBytes twoByteString).length = 1002 := by
    unfold goBytes twoByteString
    rw [List.length_map, hrep]
  have hc : (cut twoByteString 1000).length = 1015 := by
    simp only [cut, hb]
    simp only [show (1002 : Nat) > 1000 from by decide, if_true, List.length_append,
      List.length_take, hb]
    decide
  refine ⟨hl, by omega, hb, hc, ?_⟩
  intro h
  rw [h, hb] at hc
  omega

/-! ## The shape of canonical paths -/

theorem escapePath_data (key : String) :
    (escapePath key).data = key.data.flatMap fun c => if c = '.' then ['\\', '.'] else [c] :=
  rfl

/-- In an escaped key every dot directly follows a backslash. -/
theorem escaped_dot_preceded (l pre post : List Char)
    (h : (l.flatMap fun c => if c = '.' then ['\\', '.'] else [c]) = pre ++ '.' :: post) :
    ∃ pre1, pre = pre1 ++ ['\\'] := by
  induction l generalizing pre with
  | nil => simp at h
  | cons c cs ih =>
    rw [List.flatMap_cons] at h
    by_cases hc : c = '.'
    · simp only [hc, if_true] at h
      cases pre with
      | nil => simp at h
      | cons p pre =>
        simp only [List.cons_append, List.cons.injEq] at h
        obtain ⟨hp, h⟩ := h
        cases pre with
        | nil => exact ⟨[], by simp [← hp]⟩
        | cons q pre =>
          simp only [List.cons_append, List.cons.injEq] at h
          obtain ⟨_, h⟩ := h
          obtain ⟨pre1, h1⟩ := ih pre h
          exact ⟨p :: q :: pre1, by simp [h1]⟩
    · simp only [hc, if_false, List.singleton_append] at h
      cases pre with
      | nil =>
        simp only [List.nil_append, List.cons.injEq] at h
        exact absurd h.1 hc
      | cons p pre =>
        simp only [List.cons_append, List.cons.injEq] at h
        obtain ⟨pre1, h1⟩ := ih pre h.2
        exact ⟨p :: pre1, by simp [h1]⟩

/-- C13: `appendPath("", key) = escapePath(key)`, and for a non-empty parent
`appendPath(parent, key) = parent ++ "." ++ escapePath(key)`; `escapePath(key)`
is `key` with every `.` replaced by a backslash and a dot and every other
character unchanged, so that every `.` in it directly follows a backslash. -/
theorem C13_appendPath (parent key : String) :
    appendPath "" key = escapePath key ∧
      (parent ≠ "" → appendPath parent key = parent ++ "." ++ escapePath key) ∧
      (escapePath key).data
        = key.data.flatMap (fun c => if c = '.' then ['\\', '.'] else [c]) ∧
      (∀ pre post : List Char, (escapePath key).data = pre ++ '.' :: post →
        ∃ pre1, pre = pre1 ++ ['\\']) ∧
      (escapePath key).length = key.length + key.data.count '.' := by
  refine ⟨by simp [appendPath], fun h => by simp [appendPath, h], rfl,
    fun pre post h => escaped_dot_preceded key.data pre post h, ?_⟩
  obtain ⟨l⟩ := key
  show (l.flatMap fun c => if c = '.' then ['\\', '.'] else [c]).length = l.length + l.count '.'
  induction l with
  | nil => rfl
  | cons c cs ih =>
    rw [List.flatMap_cons, List.length_append, ih, List.count_cons]
    by_cases hc : c = '.'
    · simp [hc]; omega
    · have : (c == '.') = false := by simpa using hc
      simp [hc, this]; omega

/-- C14: on an unvisited, non-blacklisted path that resolves in neither
document, `compareJSON` prints exactly one event, `!EBT` (NotExistBoth), and
returns normally without a nested call: the visited set gains that path
only. -/
theorem C14_not_exist_both {D : Type} (g : Gjson D) (cfg : Config) (json1 json2 : D)
    (fuel : Nat) (path : String) (st : State)
    (hv : path ∉ st.compared) (hb : blacklisted cfg path = false)
    (h1 : (resolve g json1 path).Exists = false) (h2 : (resolve g json2 path).Exists = false) :
    compareJSON g cfg json1 json2 (fuel + 1) path st =
      .done ⟨path :: st.compared, st.out ++ [.ebt path]⟩ := by
  rw [compareJSON_terminal g cfg json1 json2 fuel path st hv (by simp [descends, hb, h1, h2])]
  simp [ownEvents, hb, h1, h2]

/-- C14 (witness): the start path `y` is absent from `{"x":1}` and from
`{}`. -/
theorem C14_not_exist_both_witness :
    compareJSON gjson ⟨[], false⟩ docX1 docEmpty 1 "y" State.init
      = .done ⟨["y"], [.ebt "y"]⟩ :=
  C14_not_exist_both gjson ⟨[], false⟩ docX1 docEmpty 0 "y" State.init
    (by decide) (by decide) (by decide) (by decide)

/-! ## Scenarios -/

/-- A run that returns within a nesting bound returns the same state within
any larger bound. -/
theorem forEach_fuel_mono (f h : String → State → Run)
    (hfh : ∀ k s s1, f k s = .done s1 → h k s = .done s1) :
    ∀ (ks : List String) (s s1 : State), forEach f ks s = .done s1 →
      forEach h ks s = .done s1 := by
  intro ks
  induction ks with
  | nil => intro s s1 hs; exact hs
  | cons k ks ih =>
    intro s s1 hs
    simp only [forEach] at hs ⊢
    cases hf : f k s with
    | overflow s2 => simp [hf] at hs
    | done s2 =>
      rw [hf] at hs
      rw [hfh k s s2 hf]
      exact ih s2 s1 hs

theorem forEachIf_fuel_mono (b : Bool) (f h : String → State → Run)
    (hfh : ∀ k s s1, f k s = .done s1 → h k s = .done s1)
    (ks : List String) (r : Run) (s1 : State) (hr : forEachIf b f ks r = .done s1) :
    ∃ s0, r = .done s0 ∧ forEachIf b h ks (.done s0) = .done s1 := by
  cases r with
  | overflow s => simp [forEachIf] at hr
  | done s =>
    refine ⟨s, rfl, ?_⟩
    cases b with
    | false => exact hr
    | true => exact forEach_fuel_mono f h hfh ks s s1 hr

theorem compareJSON_fuel_succ {D : Type} (g : Gjson D) (cfg : Config) (json1 json2 : D) :
    ∀ (fuel : Nat) (path : String) (st st1 : State),
      compareJSON g cfg json1 json2 fuel path st = .done st1 →
      compareJSON g cfg json1 json2 (fuel + 1) path st = .done st1 := by
  intro fuel
  induction fuel with
  | zero => intro path st st1 h; simp [compareJSON_zero] at h
  | succ n ih =>
    intro path st st1 h
    by_cases hv : path ∈ st.compared
    · rw [compareJSON_visited g cfg json1 json2 n path st hv] at h
      rw [compareJSON_visited g cfg json1 json2 (n + 1) path st hv]
      exact h
    · rw [compareJSON_succ g cfg json1 json2 n path st hv] at h
      rw [compareJSON_succ g cfg json1 json2 (n + 1) path st hv]
      split at h
      · rename_i hd
        rw [if_pos hd]
        simp only [recurse] at h ⊢
        have hcb : ∀ k s s1,
            (fun key s => compareJSON g cfg json1 json2 n (appendPath path key) s) k s
              = .done s1 →
            (fun key s => compareJSON g cfg json1 json2 (n + 1) (appendPath path key) s) k s
              = .done s1 := fun k s s1 hk => ih (appendPath path k) s s1 hk
        obtain ⟨s3, h3, e4⟩ := forEachIf_fuel_mono _ _ _ hcb _ _ _ h
        obtain ⟨s2, h2, e3⟩ := forEachIf_fuel_mono _ _ _ hcb _ _ _ h3
        obtain ⟨s1a, h1, e2⟩ := forEachIf_fuel_mono _ _ _ hcb _ _ _ h2
        obtain ⟨s0, h0, e1⟩ := forEachIf_fuel_mono _ _ _ hcb _ _ _ h1
        cases h0
        rw [e1, e2, e3, e4]
      · rename_i hd
        rw [if_neg hd]
        exact h

theorem compareJSON_fuel_mono {D : Type} (g : Gjson D) (cfg : Config) (json1 json2 : D)
    (fuel : Nat) (path : String) (st st1 : State)
    (h : compareJSON g cfg json1 json2 fuel path st = .done st1) :
    ∀ extra : Nat, compareJSON g cfg json1 json2 (fuel + extra) path st = .done st1 := by
  intro extra
  induction extra with
  | zero => exact h
  | succ e ih => exact compareJSON_fuel_succ g cfg json1 json2 (fuel + e) path st st1 ih

/-- C15 (as amended): Scenario 1, comparing `{"x":1}` with `{"x":1}` from the
root (empty start path, empty visited set, empty blacklist): the two
documents are equal as a whole, so the run stops at the root. In non-strict
mode it prints the two events `:EXS` and `=EQL` located at the root path, in
strict mode nothing; only the root path is visited, never `x`. -/
theorem C15_scenario1 (strict : Bool) (n : Nat) :
    compareJSON gjson ⟨[], strict⟩ docX1 docX1 (n + 1) "" State.init
      = .done ⟨[""], if strict = true then [] else [.exs "", .eql ""]⟩ := by
  have h : compareJSON gjson ⟨[], strict⟩ docX1 docX1 1 "" State.init
      = .done ⟨[""], if strict = true then [] else [.exs "", .eql ""]⟩ := by
    cases strict <;> decide
  have := compareJSON_fuel_mono gjson ⟨[], strict⟩ docX1 docX1 1 "" State.init _ h n
  rw [Nat.add_comm] at this
  exact this

/-- C15 (counterexample): in the run of Scenario 1 no event is located at
`x`, and `x` is not visited; the equal event is located at the root path. -/
theorem C15_counterexample :
    eventsAt "x" (compareJSON gjson ⟨[], false⟩ docX1 docX1 3 "" State.init).state.out = [] ∧
      "x" ∉ (compareJSON gjson ⟨[], false⟩ docX1 docX1 3 "" State.init).state.compared ∧
      eventsAt "" (compareJSON gjson ⟨[], false⟩ docX1 docX1 3 "" State.init).state.out
        = [.exs "", .eql ""] := by
  decide

/-- C16: Scenario 2, comparing `{"x":1}` with `{}` from the root (empty start
path, empty visited set, empty blacklist), in either mode and within any
nesting bound of at least two: the run returns and exactly one event is
located at `x`, the `-DEL` (deleted) event, `x` being present in the first
document only. (In non-strict mode the `:EXS` note of the root precedes it.) -/
theorem C16_scenario2 (strict : Bool) (n : Nat) :
    compareJSON gjson ⟨[], strict⟩ docX1 docEmpty (n + 2) "" State.init
        = .done ⟨["x", ""], (if strict = true then [] else [.exs ""]) ++ [.del "x"]⟩ ∧
      eventsAt "x" (compareJSON gjson ⟨[], strict⟩ docX1 docEmpty (n + 2) "" State.init).state.out
        = [.del "x"] ∧
      (resolve gjson docX1 "x").Exists = true ∧ (resolve gjson docEmpty "x").Exists = false := by
  have h : compareJSON gjson ⟨[], strict⟩ docX1 docEmpty 2 "" State.init
      = .done ⟨["x", ""], (if strict = true then [] else [.exs ""]) ++ [.del "x"]⟩ := by
    cases strict <;> decide
  have h2 := compareJSON_fuel_mono gjson ⟨[], strict⟩ docX1 docEmpty 2 "" State.init _ h n
  rw [Nat.add_comm] at h2
  rw [h2]
  refine ⟨rfl, ?_, by decide, by decide⟩
  cases strict <;> decide

/-! ## One outcome per path -/

/-- C18: in every run of `compareJSON` from an empty visited set, for any
documents, blacklist, mode and start path, each canonical path carries at
most one event other than the `:EXS` note: among the events located at a
path, those that are not `:EXS` number at most one, whether the run returns
or exceeds the nesting bound. -/
theorem C18_one_outcome_per_path {D : Type} (g : Gjson D) (cfg : Config) (json1 json2 : D)
    (fuel : Nat) (start p : String) :
    ((eventsAt p (compareJSON g cfg json1 json2 fuel start State.init).state.out).filter
      (fun e => !e.isExs)).length ≤ 1 := by
  rw [← List.countP_eq_length_filter]
  exact ((tidy_run g cfg json1 json2 fuel start).2.1 p).2

/-! ## Canonical paths of key sequences -/

theorem escChars_nil : escChars [] = [] := rfl

theorem escChars_cons_dot (l : List Char) : escChars ('.' :: l) = '\\' :: '.' :: escChars l := rfl

theorem escChars_cons_other (c : Char) (l : List Char) (h : c ≠ '.') :
    escChars (c :: l) = c :: escChars l := by
  simp [escChars, h]

theorem escChars_ne_nil (l : List Char) (h : l ≠ []) : escChars l ≠ [] := by
  cases l with
  | nil => exact absurd rfl h
  | cons c cs =>
    by_cases hc : c = '.'
    · subst hc; simp [escChars_cons_dot]
    · simp [escChars_cons_other c cs hc]

theorem appendPath_data (p key : String) (hp : p ≠ "") :
    (appendPath p key).data = p.data ++ '.' :: escChars key.data := by
  simp [appendPath, hp, escapePath, escChars]

theorem foldl_appendPath_data (keys : List String) :
    ∀ p : String, p ≠ "" →
      (List.foldl appendPath p keys).data
        = p.data ++ keys.flatMap (fun k => '.' :: escChars k.data) := by
  induction keys with
  | nil => intro p _; simp
  | cons k ks ih =>
    intro p hp
    have hne : appendPath p k ≠ "" := by
      intro h
      have := congrArg String.data h
      rw [appendPath_data p k hp] at this
      simp at this
    rw [List.foldl_cons, ih _ hne, appendPath_data p k hp]
    simp

/-- The canonical path of a non-empty sequence of non-empty keys: the escaped
keys, separated by dots. -/
theorem canonical_data (k : String) (ks : List String) (hk : k ≠ "") :
    (List.foldl appendPath "" (k :: ks)).data
      = escChars k.data ++ ks.flatMap (fun k => '.' :: escChars k.data) := by
  have h0 : appendPath "" k = escapePath k := by simp [appendPath]
  have hne : escapePath k ≠ "" := by
    intro h
    have := congrArg String.data h
    have hk2 : k.data ≠ [] := fun h2 => hk (String.ext h2)
    exact escChars_ne_nil k.data hk2 this
  rw [List.foldl_cons, h0, foldl_appendPath_data ks _ hne]
  rfl

/-! ## The display form -/

theorem splitEscapedDot_ne_nil (l : List Char) : splitEscapedDot l ≠ [] := by
  induction l using splitEscapedDot.induct <;> simp_all [splitEscapedDot]

theorem intercalate_cons (sep x : List Char) (xs : List (List Char)) :
    List.intercalate sep (x :: xs) = x ++ xs.flatMap (fun y => sep ++ y) := by
  induction xs generalizing x with
  | nil => simp [List.intercalate]
  | cons y ys ih =>
    have h := ih y
    simp only [List.intercalate, List.intersperse_cons_cons, List.flatten_cons,
      List.flatMap_cons] at h ⊢
    rw [h]
    simp

theorem ppChars_nil : ppChars [] = [] := rfl

theorem ppChars_escaped (l : List Char) : ppChars ('\\' :: '.' :: l) = '.' :: ppChars l := by
  unfold ppChars
  rw [splitEscapedDot]
  obtain ⟨hd, tl, h⟩ := List.exists_cons_of_ne_nil (splitEscapedDot_ne_nil l)
  rw [h]
  simp [intercalate_cons]

theorem splitEscapedDot_cons (c : Char) (l : List Char) (hc : c ≠ '\\') :
    ∃ hd tl, splitEscapedDot l = hd :: tl ∧ splitEscapedDot (c :: l) = (c :: hd) :: tl := by
  obtain ⟨hd, tl, h⟩ := List.exists_cons_of_ne_nil (splitEscapedDot_ne_nil l)
  refine ⟨hd, tl, h, ?_⟩
  rw [splitEscapedDot]
  · rw [h]
  · intro rest hrest
    simp at hrest
    exact absurd hrest hc

theorem ppChars_dot (l : List Char) : ppChars ('.' :: l) = ' ' :: '.' :: ' ' :: ppChars l := by
  obtain ⟨hd, tl, h1, h2⟩ := splitEscapedDot_cons '.' l (by decide)
  unfold ppChars
  rw [h1, h2]
  simp [intercalate_cons]

theorem ppChars_other (c : Char) (l : List Char) (h1 : c ≠ '\\') (h2 : c ≠ '.') :
    ppChars (c :: l) = c :: ppChars l := by
  obtain ⟨hd, tl, e1, e2⟩ := splitEscapedDot_cons c l h1
  unfold ppChars
  rw [e1, e2]
  simp [intercalate_cons, h2]

/-- The display form of an escaped key without backslash is the key. -/
theorem ppChars_escChars (k m : List Char) (hk : '\\' ∉ k) :
    ppChars (escChars k ++ m) = k ++ ppChars m := by
  induction k with
  | nil => rfl
  | cons c cs ih =>
    have hc : c ≠ '\\' := fun h => hk (h ▸ List.mem_cons_self _ _)
    have hcs : '\\' ∉ cs := fun h => hk (List.mem_cons_of_mem _ h)
    by_cases hd : c = '.'
    · subst hd
      rw [escChars_cons_dot, List.cons_append, List.cons_append, ppChars_escaped, ih hcs]
      rfl
    · rw [escChars_cons_other c cs hd, List.cons_append, ppChars_other c _ hc hd, ih hcs]
      rfl

theorem ppChars_tail (ks : List String) (hk : ∀ k ∈ ks, '\\' ∉ k.data) :
    ppChars (ks.flatMap fun k => '.' :: escChars k.data)
      = ks.flatMap fun k => [' ', '.', ' '] ++ k.data := by
  induction ks with
  | nil => rfl
  | cons k ks ih =>
    rw [List.flatMap_cons, List.flatMap_cons, List.cons_append, ppChars_dot,
      ppChars_escChars _ _ (hk k (List.mem_cons_self _ _)),
      ih (fun k1 h1 => hk k1 (List.mem_cons_of_mem _ h1))]
    simp

theorem intercalate_go_data (sep : String) (as : List String) :
    ∀ acc : String, (String.intercalate.go acc sep as).data
      = acc.data ++ as.flatMap (fun a => sep.data ++ a.data) := by
  induction as with
  | nil => intro acc; simp [String.intercalate.go]
  | cons a as ih => intro acc; simp [String.intercalate.go, ih]

/-- C17: for every sequence of non-empty keys that contain no backslash, the
display form `pp` of the canonical path built from them by `appendPath` is
the keys joined by ` . `: every path separator gets a space on either side
and every escaped separator inside a key is shown as a plain dot. -/
theorem C17_display_form (keys : List String)
    (hk : ∀ k ∈ keys, k ≠ "" ∧ '\\' ∉ k.data) :
    pp (List.foldl appendPath "" keys) = " . ".intercalate keys := by
  cases keys with
  | nil => rfl
  | cons k ks =>
    apply String.ext
    show ppChars (List.foldl appendPath "" (k :: ks)).data = _
    rw [canonical_data k ks (hk k (List.mem_cons_self _ _)).1,
      ppChars_escChars _ _ (hk k (List.mem_cons_self _ _)).2,
      ppChars_tail ks (fun k1 h1 => (hk k1 (List.mem_cons_of_mem _ h1)).2)]
    simp only [String.intercalate, intercalate_go_data]

/-- C17 (witness): the keys `a.b` and `c` give the canonical path `a\.b.c`,
shown as `a.b . c`. -/
theorem C17_display_form_witness :
    List.foldl appendPath "" ["a.b", "c"] = "a\\.b.c" ∧
      pp (List.foldl appendPath "" ["a.b", "c"]) = "a.b . c" :=
  ⟨by decide, C17_display_form ["a.b", "c"] (by decide)⟩

/-! ## Reading a canonical path back -/

theorem splitUnescaped_ne_nil (l : List Char) : splitUnescaped l ≠ [] := by
  induction l using splitUnescaped.induct <;> simp_all [splitUnescaped, consHead]
  all_goals (split <;> simp)

theorem unescapeDots_escChars (k : List Char) (hk : '\\' ∉ k) :
    unescapeDots (escChars k) = k := by
  induction k with
  | nil => rfl
  | cons c cs ih =>
    have hc : c ≠ '\\' := fun h => hk (h ▸ List.mem_cons_self _ _)
    have hcs : '\\' ∉ cs := fun h => hk (List.mem_cons_of_mem _ h)
    by_cases hd : c = '.'
    · subst hd
      rw [escChars_cons_dot, unescapeDots, ih hcs]
    · rw [escChars_cons_other c cs hd, unescapeDots, ih hcs]
      intro rest hrest
      simp at hrest
      exact absurd hrest hc

theorem splitUnescaped_escChars (k m : List Char) (hk : '\\' ∉ k) :
    splitUnescaped (escChars k ++ m) = consHead (escChars k) (splitUnescaped m) := by
  induction k with
  | nil =>
    obtain ⟨hd, tl, h⟩ := List.exists_cons_of_ne_nil (splitUnescaped_ne_nil m)
    simp [escChars_nil, h, consHead]
  | cons c cs ih =>
    have hc : c ≠ '\\' := fun h => hk (h ▸ List.mem_cons_self _ _)
    have hcs : '\\' ∉ cs := fun h => hk (List.mem_cons_of_mem _ h)
    obtain ⟨hd, tl, h⟩ := List.exists_cons_of_ne_nil (splitUnescaped_ne_nil m)
    by_cases hd1 : c = '.'
    · subst hd1
      rw [escChars_cons_dot, List.cons_append, List.cons_append, splitUnescaped, ih hcs, h]
      simp [consHead]
    · rw [escChars_cons_other c cs hd1, List.cons_append, splitUnescaped, ih hcs, h]
      · simp [consHead]
      · intro rest hrest
        simp at hrest
        exact absurd hrest hc
      · intro hdot
        exact absurd hdot hd1

theorem splitUnescaped_tail (ks : List String) (hk : ∀ k ∈ ks, '\\' ∉ k.data) :
    splitUnescaped (ks.flatMap fun k => '.' :: escChars k.data)
      = [] :: ks.map (fun k => escChars k.data) := by
  induction ks with
  | nil => rfl
  | cons k ks ih =>
    rw [List.flatMap_cons, List.cons_append, splitUnescaped,
      splitUnescaped_escChars _ _ (hk k (List.mem_cons_self _ _)),
      ih (fun k1 h1 => hk k1 (List.mem_cons_of_mem _ h1))]
    simp [consHead]

/-- Decoding the canonical path of a sequence of non-empty keys without
backslash gives the sequence back. -/
theorem decodePath_canonical (keys : List String)
    (hk : ∀ k ∈ keys, k ≠ "" ∧ '\\' ∉ k.data) :
    decodePath (List.foldl appendPath "" keys) = keys := by
  cases keys with
  | nil => rfl
  | cons k ks =>
    have hk0 := hk k (List.mem_cons_self _ _)
    have hks : ∀ k1 ∈ ks, '\\' ∉ k1.data := fun k1 h1 => (hk k1 (List.mem_cons_of_mem _ h1)).2
    have hd := canonical_data k ks hk0.1
    have hne : List.foldl appendPath "" (k :: ks) ≠ "" := by
      intro h
      have := congrArg String.data h
      rw [hd] at this
      have hk2 : k.data ≠ [] := fun h2 => hk0.1 (String.ext h2)
      have := escChars_ne_nil k.data hk2
      simp_all
    unfold decodePath
    rw [if_neg hne, hd, splitUnescaped_escChars _ _ hk0.2, splitUnescaped_tail ks hks]
    simp only [consHead, List.append_nil, List.map_cons, List.map_map]
    rw [unescapeDots_escChars _ hk0.2]
    congr 1
    conv_rhs => rw [← List.map_id ks]
    apply List.map_congr_left
    intro k1 h1
    simp [unescapeDots_escChars _ (hks k1 h1)]

/-- C19: restricted to keys that are non-empty and contain no backslash, path
encoding is injective: two different sequences of such keys fold under
`appendPath`, from the empty path, to different canonical strings; and the
key sequence is recovered from the canonical string by splitting at every
dot that is not preceded by a backslash and unescaping the segments. -/
theorem C19_injective_on_plain_keys (keys1 keys2 : List String)
    (h1 : ∀ k ∈ keys1, k ≠ "" ∧ '\\' ∉ k.data)
    (h2 : ∀ k ∈ keys2, k ≠ "" ∧ '\\' ∉ k.data) :
    decodePath (List.foldl appendPath "" keys1) = keys1 ∧
      (keys1 ≠ keys2 → List.foldl appendPath "" keys1 ≠ List.foldl appendPath "" keys2) := by
  refine ⟨decodePath_canonical keys1 h1, ?_⟩
  intro hne heq
  apply hne
  rw [← decodePath_canonical keys1 h1, ← decodePath_canonical keys2 h2, heq]

/-- C19 (witness): the key sequence `a.b`, `c` is read back from its
canonical path `a\.b.c`, which differs from the canonical path `a.b.c` of
the sequence `a`, `b`, `c`. -/
theorem C19_injective_on_plain_keys_witness :
    decodePath "a\\.b.c" = ["a.b", "c"] ∧
      List.foldl appendPath "" ["a.b", "c"] ≠ List.foldl appendPath "" ["a", "b", "c"] :=
  have h := C19_injective_on_plain_keys ["a.b", "c"] ["a", "b", "c"] (by decide) (by decide)
  ⟨by decide, h.2 (by decide)⟩

/-! ## Keys that do not resolve -/

/-- C20 (failing input): on the documents `{"a\\b":1}` and `{"a\\b":2}`, in
the run from the root, the child path built by `appendPath` for the key `a\b`
of both root objects is `a\b`, which gjson reads as the key `ab`: it resolves
in neither document and the run prints `!EBT` (NotExistBoth) for it. -/
theorem C20_not_exist_both_reached :
    "a\\b" ∈ (resolve gjson docBackslash1 "").keys ∧
      "a\\b" ∈ (resolve gjson docBackslash2 "").keys ∧
      appendPath "" "a\\b" = "a\\b" ∧
      (resolve gjson docBackslash1 "a\\b").Exists = false ∧
      (resolve gjson docBackslash2 "a\\b").Exists = false ∧
      compareJSON gjson ⟨[], false⟩ docBackslash1 docBackslash2 2 "" State.init
        = .done ⟨["a\\b", ""], [.exs "", .ebt "a\\b"]⟩ := by
  decide

/-! ## A sibling that is never visited -/

/-- On two objects whose first key is `@this`, with an empty blacklist, a
call on `thisPath k` exceeds every nesting bound and visits nothing but
paths of the `@this` chain. -/
theorem overflow_this_first (cfg : Config) (hbl : cfg.blacklist = []) (json1 json2 : JVal)
    (ks : List String)
    (hd : ∀ p, blacklisted cfg p = false → descends cfg p json1.result json2.result = true)
    (ho : json1.result.IsObject = true) (hk : json1.result.keys = "@this" :: ks) :
    ∀ (n k : Nat) (st : State), (∀ j, k ≤ j → thisPath j ∉ st.compared) → OnThisChain st →
      ∃ st1, compareJSON gjson cfg json1 json2 n (thisPath k) st = .overflow st1 ∧
        OnThisChain st1 := by
  intro n
  induction n with
  | zero => intro k st _ hc; exact ⟨st, rfl, hc⟩
  | succ n ih =>
    intro k st hfree hc
    have hv := hfree k (Nat.le_refl k)
    have hb : blacklisted cfg (thisPath k) = false := by simp [blacklisted, hbl]
    rw [compareJSON_succ gjson cfg json1 json2 n (thisPath k) st hv]
    rw [resolve_this, resolve_this]
    obtain ⟨st1, h1, hc1⟩ := ih (k + 1)
      ⟨thisPath k :: st.compared,
        st.out ++ ownEvents cfg (thisPath k) json1.result json2.result⟩
      (by
        intro j hj
        simp only [List.mem_cons, not_or]
        exact ⟨thisPath_ne j k (by omega), hfree j (by omega)⟩)
      (by
        intro q hq
        rcases List.mem_cons.1 hq with hq | hq
        · exact Or.inr ⟨k, hq⟩
        · exact hc q hq)
    refine ⟨st1, ?_, hc1⟩
    rw [hd _ hb]
    simp only [if_true, recurse, ho, hk, forEachIf, forEach]
    have hstep : appendPath (thisPath k) "@this" = thisPath (k + 1) := rfl
    rw [hstep, h1]

/-- C6 (failing input): at the root of `{"@this":1,"b":2}` against
`{"@this":2,"b":3}` the path is unvisited and not blacklisted, both documents
have an object, the serialized forms differ and `b` is a key of both; yet for
every nesting bound the run is still inside the call for the key `@this`,
which never returns, and the child path `b` is not in the visited set. -/
theorem C6_sibling_never_visited (strict : Bool) (fuel : Nat) :
    "" ∉ State.init.compared ∧ blacklisted ⟨[], strict⟩ "" = false ∧
      (resolve gjson docThisB1 "").IsObject = true ∧
      (resolve gjson docThisB2 "").IsObject = true ∧
      (resolve gjson docThisB1 "").text ≠ (resolve gjson docThisB2 "").text ∧
      "b" ∈ (resolve gjson docThisB1 "").keys ∧ "b" ∈ (resolve gjson docThisB2 "").keys ∧
      ∃ st, compareJSON gjson ⟨[], strict⟩ docThisB1 docThisB2 fuel "" State.init
          = .overflow st ∧
        appendPath "" "b" ∉ st.compared := by
  refine ⟨by decide, by cases strict <;> decide, by decide, by decide, by decide, by decide,
    by decide, ?_⟩
  have hb : ∀ st : State, OnThisChain st → appendPath "" "b" ∉ st.compared := by
    intro st hc hmem
    rcases hc _ hmem with h | ⟨j, h⟩
    · exact absurd h (by decide)
    · have := congrArg (fun s => s.data.length) h
      simp only [thisPath_data, thisChars_length] at this
      have h1 : (appendPath "" "b").data.length = 1 := by decide
      omega
  cases fuel with
  | zero => exact ⟨State.init, rfl, hb _ (by intro q hq; simp [State.init] at hq)⟩
  | succ n =>
    have hv : "" ∉ State.init.compared := by simp [State.init]
    rw [compareJSON_succ gjson ⟨[], strict⟩ docThisB1 docThisB2 n "" State.init hv]
    have hr1 : resolve gjson docThisB1 "" = docThisB1.result := rfl
    have hr2 : resolve gjson docThisB2 "" = docThisB2.result := rfl
    rw [hr1, hr2]
    have hdesc : ∀ p, blacklisted ⟨[], strict⟩ p = false →
        descends ⟨[], strict⟩ p docThisB1.result docThisB2.result = true := by
      intro p hp
      simp only [descends, hp]
      decide
    have hbl : blacklisted ⟨[], strict⟩ "" = false := by cases strict <;> decide
    have ho1 : docThisB1.result.IsObject = true := by decide
    have hk1 : docThisB1.result.keys = ["@this", "b"] := by decide
    obtain ⟨st1, h1, hc1⟩ := overflow_this_first ⟨[], strict⟩ rfl docThisB1 docThisB2 ["b"]
      hdesc ho1 hk1 n 0
      ⟨"" :: State.init.compared,
        State.init.out ++ ownEvents ⟨[], strict⟩ "" docThisB1.result docThisB2.result⟩
      (by
        intro j _
        simp only [State.init, List.mem_cons, List.not_mem_nil, or_false]
        exact thisPath_ne_empty j)
      (by
        intro q hq
        simp only [State.init, List.mem_cons, List.not_mem_nil, or_false] at hq
        exact Or.inl hq)
    refine ⟨st1, ?_, hb st1 hc1⟩
    rw [hdesc _ hbl]
    simp only [if_true, recurse, ho1, hk1, forEachIf, forEach]
    have hstep : appendPath "" "@this" = thisPath 0 := by decide
    rw [hstep, h1]

/-! ## The blacklist stops the recursion -/

theorem reached_mono (cfg : Config) (start q : String) (c1 c2 : List String)
    (hsub : ∀ r ∈ c1, r ∈ c2) (h : Reached cfg start c1 q) : Reached cfg start c2 q := by
  rcases h with h | ⟨r, key, hr, hb, hq⟩
  · exact Or.inl h
  · exact Or.inr ⟨r, key, hsub r hr, hb, hq⟩

theorem recurse_preserves_children (P : State → Prop) (call : String → State → Run)
    (path : String)
    (hcall : ∀ key st, P st → P (call (appendPath path key) st).state)
    (r1 r2 : Result) (st : State) (h : P st) :
    P (recurse call path r1 r2 st).state := by
  unfold recurse
  have hf : ∀ k s, P s → P ((fun key s => call (appendPath path key) s) k s).state :=
    fun k s hs => hcall k s hs
  exact forEachIf_preserves P _ hf _ _ _ (forEachIf_preserves P _ hf _ _ _
    (forEachIf_preserves P _ hf _ _ _ (forEachIf_preserves P _ hf _ _ (.done st) h)))

theorem descends_not_blacklisted (cfg : Config) (path : String) (r1 r2 : Result)
    (h : descends cfg path r1 r2 = true) : blacklisted cfg path = false := by
  unfold descends at h
  cases hb : blacklisted cfg path
  · rfl
  · simp [hb] at h

/-- Every call of a run is made on the start path or on a child of a visited
path that is not blacklisted. -/
theorem provenance_call {D : Type} (g : Gjson D) (cfg : Config) (json1 json2 : D)
    (start : String) :
    ∀ (fuel : Nat) (path : String) (st : State), Provenance cfg start st →
      Reached cfg start st.compared path →
      Provenance cfg start (compareJSON g cfg json1 json2 fuel path st).state := by
  intro fuel
  induction fuel with
  | zero => intro path st h _; exact h
  | succ n ih =>
    intro path st h hr
    by_cases hv : path ∈ st.compared
    · rw [compareJSON_visited g cfg json1 json2 n path st hv]; exact h
    · rw [compareJSON_succ g cfg json1 json2 n path st hv]
      have h1 : Provenance cfg start
          ⟨path :: st.compared,
            st.out ++ ownEvents cfg path (resolve g json1 path) (resolve g json2 path)⟩ := by
        intro q hq
        have hsub : ∀ r ∈ st.compared, r ∈ path :: st.compared :=
          fun r hr1 => List.mem_cons_of_mem _ hr1
        rcases List.mem_cons.1 hq with hq | hq
        · exact reached_mono cfg start q _ _ hsub (hq ▸ hr)
        · exact reached_mono cfg start q _ _ hsub (h q hq)
      split
      · rename_i hd
        have hbl := descends_not_blacklisted cfg path _ _ hd
        have key := recurse_preserves_children
          (fun s => Provenance cfg start s ∧ path ∈ s.compared)
          (compareJSON g cfg json1 json2 n) path
          (fun k s hs =>
            ⟨ih (appendPath path k) s hs.1 (Or.inr ⟨path, k, hs.2, hbl, rfl⟩),
              compared_preserved g cfg json1 json2 path n (appendPath path k) s hs.2⟩)
          (resolve g json1 path) (resolve g json2 path) _ ⟨h1, List.mem_cons_self _ _⟩
        exact key.1
      · exact h1

theorem provenance_run {D : Type} (g : Gjson D) (cfg : Config) (json1 json2 : D)
    (fuel : Nat) (start : String) :
    Provenance cfg start (compareJSON g cfg json1 json2 fuel start State.init).state :=
  provenance_call g cfg json1 json2 start fuel start State.init
    (by intro q hq; simp [State.init] at hq) (Or.inl rfl)

theorem blacklisted_of_prefix (cfg : Config) (p r : String) (c : List Char)
    (hp : blacklisted cfg p = true) (hr : r.data = p.data ++ c) : blacklisted cfg r = true := by
  rw [blacklisted_iff] at hp ⊢
  obtain ⟨b, hb, s, t, hpe⟩ := hp
  refine ⟨b, hb, s, t ++ ⟨c⟩, ?_⟩
  apply String.ext
  rw [hr, hpe]
  simp

/-- A path whose child is a proper descendant of a blacklisted path `p` that
does not end in a backslash is itself blacklisted. -/
theorem parent_blacklisted (cfg : Config) (p r key : String) (keys : List String)
    (hp : blacklisted cfg p = true) (hbs : p.data.getLast? ≠ some '\\') (hk : keys ≠ [])
    (heq : appendPath r key = descendant p keys) : blacklisted cfg r = true := by
  by_cases hpe : p = ""
  · subst hpe
    exact blacklisted_of_prefix cfg "" r r.data hp (by simp)
  · obtain ⟨k1, ks, rfl⟩ := List.exists_cons_of_ne_nil hk
    have hq : (descendant p (k1 :: ks)).data
        = p.data ++ '.' :: (escChars k1.data ++ ks.flatMap (fun k => '.' :: escChars k.data)) := by
      unfold descendant
      rw [foldl_appendPath_data (k1 :: ks) p hpe]
      simp
    have hlast : ∀ pre1 : List Char, p.data ≠ pre1 ++ ['\\'] := by
      intro pre1 h
      apply hbs
      rw [h]
      simp
    have hd := congrArg String.data heq
    rw [hq] at hd
    by_cases hre : r = ""
    · subst hre
      have h0 : (appendPath "" key).data = escChars key.data := by simp [appendPath, escapePath, escChars]
      rw [h0] at hd
      obtain ⟨pre1, h1⟩ := escaped_dot_preceded key.data p.data _ hd
      exact absurd h1 (hlast pre1)
    · rw [appendPath_data r key hre] at hd
      rcases List.append_eq_append_iff.1 hd with ⟨a, ha1, ha2⟩ | ⟨c, hc1, _⟩
      · cases a with
        | nil =>
          exact blacklisted_of_prefix cfg p r [] hp (by simp [ha1])
        | cons d a =>
          simp only [List.cons_append, List.cons.injEq] at ha2
          obtain ⟨pre1, h1⟩ := escaped_dot_preceded key.data a _ ha2.2
          exfalso
          apply hlast (r.data ++ d :: pre1)
          rw [ha1, h1]
          simp
      · exact blacklisted_of_prefix cfg p r c hp hc1

/-- C9 (as amended): in a run of `compareJSON` from a fresh state, for any
documents and blacklist, let `p` be a blacklisted path. The call on a
blacklisted path makes no nested call, so every event is located at the start
path or at a child of a visited path that is not blacklisted. Hence, when `p`
does not end in a backslash, no event is printed for any descendant of `p`
other than the start path; and a descendant of `p` that is reached at all
(for instance as the start path) gets nothing but its own `!BLK` event. -/
theorem C9_blacklist_stops_recursion {D : Type} (g : Gjson D) (cfg : Config)
    (json1 json2 : D) (fuel : Nat) (start p : String) (keys : List String)
    (hp : ∃ b ∈ cfg.blacklist, ∃ s t : String, p = s ++ b ++ t) (hk : keys ≠ []) :
    (∀ e ∈ (compareJSON g cfg json1 json2 fuel start State.init).state.out,
      e.path = start ∨ ∃ r key,
        r ∈ (compareJSON g cfg json1 json2 fuel start State.init).state.compared ∧
        blacklisted cfg r = false ∧ e.path = appendPath r key) ∧
    (p.data.getLast? ≠ some '\\' → descendant p keys ≠ start →
      ∀ e ∈ (compareJSON g cfg json1 json2 fuel start State.init).state.out,
        e.path ≠ descendant p keys) ∧
    (∀ e ∈ (compareJSON g cfg json1 json2 fuel start State.init).state.out,
      e.path = descendant p keys → e = .blk (descendant p keys)) := by
  have hpb := (blacklisted_iff cfg p).2 hp
  have hprov := provenance_run g cfg json1 json2 fuel start
  have htidy := (tidy_run g cfg json1 json2 fuel start).1
  have hreach : ∀ e ∈ (compareJSON g cfg json1 json2 fuel start State.init).state.out,
      e.path = start ∨ ∃ r key,
        r ∈ (compareJSON g cfg json1 json2 fuel start State.init).state.compared ∧
        blacklisted cfg r = false ∧ e.path = appendPath r key :=
    fun e he => hprov e.path (htidy e he)
  refine ⟨hreach, ?_, ?_⟩
  · intro hbs hne e he hpath
    rcases hreach e he with h | ⟨r, key, _, hrb, hq⟩
    · exact hne (hpath ▸ h)
    · have := parent_blacklisted cfg p r key keys hpb hbs hk (hq ▸ hpath)
      rw [hrb] at this
      exact absurd this (by decide)
  · intro e he hpath
    have hd := blacklisted_descendant cfg keys p hpb
    have := blacklisted_only_blk g cfg json1 json2 fuel start e he (hpath ▸ hd)
    rw [hpath] at this
    exact this

/-- C9 (witness): blacklist `secret`, documents `{"secret":{"token":"abc"}}`
and `{"secret":{"token":"xyz"}}`, run from the root: the run prints `:EXS` for
the root and `!BLK` for `secret`, and nothing for the descendant
`secret.token`. -/
theorem C9_blacklist_stops_recursion_witness :
    compareJSON gjson ⟨["secret"], false⟩ docTokenAbc docTokenXyz 2 "" State.init
        = .done ⟨["secret", ""], [.exs "", .blk "secret"]⟩ ∧
      (Event.exs "").path ≠ descendant "secret" ["token"] ∧
      (Event.blk "secret").path ≠ descendant "secret" ["token"] :=
  have h := (C9_blacklist_stops_recursion gjson ⟨["secret"], false⟩ docTokenAbc docTokenXyz 2
    "" "secret" ["token"] ⟨"secret", by decide, "", "", by decide⟩ (by decide)).2.1
    (by decide) (by decide)
  ⟨by decide, h (.exs "") (by decide), h (.blk "secret") (by decide)⟩

/-- C9 (counterexample): with blacklist `secret` the path `secret` is
blacklisted and `secret.token` is its descendant by the key `token`; the run
started at `secret.token` prints an event for that descendant. Likewise, with
the blacklist entry `x\`, the path `x\` is blacklisted and `x\.y` is its
descendant by the key `y`; the run from the root of `{"x.y":1}` against
`{"x.y":2}` reaches `x\.y` as the child of the root for the key `x.y` and
prints an event for it. -/
theorem C9_counterexample :
    blacklisted ⟨["secret"], false⟩ "secret" = true ∧
      descendant "secret" ["token"] = "secret.token" ∧
      compareJSON gjson ⟨["secret"], false⟩ docTokenAbc docTokenXyz 1 "secret.token"
          State.init
        = .done ⟨["secret.token"], [.blk "secret.token"]⟩ ∧
      (Event.blk "secret.token").path = descendant "secret" ["token"] ∧
      blacklisted ⟨["x\\"], false⟩ "x\\" = true ∧
      descendant "x\\" ["y"] = "x\\.y" ∧
      compareJSON gjson ⟨["x\\"], false⟩ docDotKey1 docDotKey2 2 "" State.init
        = .done ⟨["x\\.y", ""], [.exs "", .blk "x\\.y"]⟩ ∧
      (Event.blk "x\\.y").path = descendant "x\\" ["y"] := by
  decide

end Jcmp
